import Mathlib

/-!
Verification of the data-access layer of TGProjectManager.

This development is a shallow embedding of the CRUD layer in
src/db/crud.py over the entity schema of src/db/models.py and the
error taxonomy of src/db/exceptions.py.

Modelling conventions:
* The relational store is a record of lists of rows (`DB`), one list per
  table, plus the autoincrement counters of the sequence-assigned
  primary keys and a counter of committed transactions (`commits`,
  incremented once per executed `session.commit()` call).
* Every read-only operation is a function `DB → ... → Except CrudError α`;
  every mutating operation is a function `DB → ... → DB × Except CrudError α`
  returning the store as left by the call (the Python code commits
  mid-operation, so a call that raises may still have committed
  effects; the returned `DB` reflects exactly the committed state).
* Machine integers (Telegram ids, BigInteger columns) are modelled as
  `Int`; timestamps are modelled as `Int` instants passed in as a `now`
  parameter where the code reads the clock.
* `IntegrityError` paths of the driver are modelled by the uniqueness
  checks the schema enforces (primary keys and unique columns): a
  commit that would violate them fails and leaves the store unchanged,
  and the operation translates that into the domain error the code
  raises for `IntegrityError`.
* SQLAlchemy relationship attributes (for example `membership.project`)
  are modelled by lookup in the corresponding table; a dangling foreign
  key, which the schema rules out, makes the lookup skip the row.
-/

/-- Row of the `users` table (class `User` in src/db/models.py). -/
structure UserR where
  user_id : Int
  username : Option String
  first_name : String
  is_bot : Bool
deriving Repr, DecidableEq

/-- Row of the `projects` table (class `Project` in src/db/models.py). -/
structure ProjectR where
  project_id : Int
  name : String
  owner_user_id : Int
  description : Option String
deriving Repr, DecidableEq

/-- Row of the `project_members` table (class `ProjectMember`);
composite primary key `(project_id, user_id)`. -/
structure ProjectMemberR where
  project_id : Int
  user_id : Int
  role : String
deriving Repr, DecidableEq

/-- Row of the `tasks` table (class `Task` in src/db/models.py). -/
structure TaskR where
  task_id : Int
  project_id : Int
  task_id_in_project : Int
  title : String
  description : String
  status : String
  creator_user_id : Option Int
  assignee_user_id : Option Int
  chat_id_created_in : Option Int
  completed_at : Option Int
  due_date : Option Int
deriving Repr, DecidableEq

/-- Row of the `chats` table (class `Chat` in src/db/models.py);
`chat_type` embeds the column named `type`. -/
structure ChatR where
  chat_id : Int
  title : Option String
  chat_type : String
deriving Repr, DecidableEq

/-- Row of the `invites` table (class `Invites` in src/db/models.py). -/
structure InviteR where
  invite_id : Int
  invite_code : String
  project_id : Int
  max_uses : Option Int
  current_uses : Int
  generated_by_user_id : Int
  expires_at : Option Int
deriving Repr, DecidableEq

/-- The relational store: the six tables, the `project_chats` join
table (pairs `(project_id, chat_id)`), the autoincrement counters of
the sequence-assigned primary keys, and a count of committed
transactions. -/
structure DB where
  users : List UserR
  projects : List ProjectR
  members : List ProjectMemberR
  tasks : List TaskR
  chats : List ChatR
  invites : List InviteR
  project_chats : List (Int × Int)
  next_project_id : Int
  next_task_id : Int
  next_invite_id : Int
  commits : Nat
deriving Repr, DecidableEq

/-- The empty store with which the application starts. -/
def emptyDB : DB :=
  { users := [], projects := [], members := [], tasks := [], chats := [],
    invites := [], project_chats := [], next_project_id := 1,
    next_task_id := 1, next_invite_id := 1, commits := 0 }

/-- The error taxonomy of src/db/exceptions.py: the NotFound branch,
the Conflict branch, and the catch-all `DatabaseError`. -/
inductive CrudError where
  | userNotFound (user_id : Int)
  | projectNotFound (project_id : Int)
  | memberNotFound (project_id : Int) (user_id : Int)
  | taskNotFound
  | inviteNotFound (invite_code : String)
  | chatNotFound (chat_id : Int)
  | projectNameConflict (name : String)
  | userAlreadyMember (user_id : Int) (project_id : Int)
  | inviteCodeConflict (invite_code : String)
  | chatAlreadyExists (chat_id : Int)
  | userAlreadyExists (user_id : Int)
  | userAlreadyProjectOwner (user_id : Int) (project_id : Int)
  | inviteExpired (invite_code : String)
  | inviteMaxUsesReached (invite_code : String)
  | invalidTaskStatus (status : String)
  | chatAlreadyLinked (chat_id : Int) (project_id : Int)
  | chatNotLinked (chat_id : Int) (project_id : Int)
  | databaseError
deriving Repr, DecidableEq

deriving instance DecidableEq for Except

/-- The values of the `TaskStatus` enumeration of src/db/models.py. -/
def valid_statuses : List String :=
  ["new", "in_progress", "review", "completed", "cancelled"]

/-- Embeds `crud.get_user_by_id`: lookup by primary key, the entity or
`UserNotFoundError`. -/
def get_user_by_id (db : DB) (user_id : Int) : Except CrudError UserR :=
  match db.users.find? (fun u => u.user_id == user_id) with
  | some u => .ok u
  | none => .error (.userNotFound user_id)

/-- Embeds `crud.create_user`: insert and commit; an `IntegrityError`
(duplicate primary key `user_id`, or duplicate value in the unique
nullable `username` column) becomes `UserAlreadyExistsError`. -/
def create_user (db : DB) (user_id : Int) (username : Option String)
    (first_name : String) (is_bot : Bool) : DB × Except CrudError UserR :=
  let dup := db.users.any (fun u => u.user_id == user_id) ||
    (match username with
     | some s => db.users.any (fun u => u.username == some s)
     | none => false)
  if dup then (db, .error (.userAlreadyExists user_id))
  else
    let u : UserR := { user_id := user_id, username := username,
                       first_name := first_name, is_bot := is_bot }
    ({ db with users := db.users ++ [u], commits := db.commits + 1 }, .ok u)

/-- The field-update phase of `crud.get_or_create_and_update_user` on
an already fetched row: the asymmetric two-branch handling of
`username`, then `first_name`, then `is_bot`, each flipped only when it
differs, together with the `needs_update` flag. -/
def upsertApply (user0 : UserR) (username : Option String)
    (first_name : String) (is_bot : Bool) : UserR × Bool :=
  let s1 : UserR × Bool :=
    if username.isSome && (user0.username != username) then
      ({ user0 with username := username }, true)
    else if username.isNone && user0.username.isSome then
      ({ user0 with username := none }, true)
    else (user0, false)
  let s2 : UserR × Bool :=
    if s1.1.first_name != first_name then
      ({ s1.1 with first_name := first_name }, true)
    else s1
  if s2.1.is_bot != is_bot then
    ({ s2.1 with is_bot := is_bot }, true)
  else s2

/-- Embeds `crud.get_or_create_and_update_user`: fetch by id; if absent
create; if present flip exactly the fields that differ (via
`upsertApply`) and commit only when some field changed. -/
def get_or_create_and_update_user (db : DB) (user_id : Int)
    (username : Option String) (first_name : String) (is_bot : Bool) :
    DB × Except CrudError UserR :=
  match get_user_by_id db user_id with
  | .error (.userNotFound _) => create_user db user_id username first_name is_bot
  | .error e => (db, .error e)
  | .ok user0 =>
    let s3 := upsertApply user0 username first_name is_bot
    if s3.2 then
      ({ db with
          users := db.users.map (fun x => if x.user_id == user_id then s3.1 else x),
          commits := db.commits + 1 }, .ok s3.1)
    else (db, .ok s3.1)

/-- Embeds `crud.get_project_by_id`. -/
def get_project_by_id (db : DB) (project_id : Int) : Except CrudError ProjectR :=
  match db.projects.find? (fun p => p.project_id == project_id) with
  | some p => .ok p
  | none => .error (.projectNotFound project_id)

/-- Embeds `crud.create_project`: the owner must exist; insert with the
next sequence-assigned id and commit; an `IntegrityError` (the unique
`name` column) becomes `ProjectNameConflictError`. -/
def create_project (db : DB) (owner_user_id : Int) (name : String)
    (description : Option String) : DB × Except CrudError ProjectR :=
  match get_user_by_id db owner_user_id with
  | .error e => (db, .error e)
  | .ok _ =>
    if db.projects.any (fun p => p.name == name) then
      (db, .error (.projectNameConflict name))
    else
      let p : ProjectR := { project_id := db.next_project_id, name := name,
                            owner_user_id := owner_user_id, description := description }
      ({ db with projects := db.projects ++ [p],
                 next_project_id := db.next_project_id + 1,
                 commits := db.commits + 1 }, .ok p)

/-- Embeds `crud.update_project`. The Python signature defaults both
fields to a module-level `sentinel`; a parameter left at the sentinel is
modelled as `none` in the outer `Option`. Storing `None` in the
non-nullable `name` column would be an integrity fault, so `name`
carries a plain value; `description` is nullable and carries
`Option String`. A no-op update performs no commit; a name collision on
commit becomes `ProjectNameConflictError`. -/
def projApply (p0 : ProjectR) (name : Option String)
    (description : Option (Option String)) : ProjectR × Bool :=
  let s1 : ProjectR × Bool :=
    match name with
    | some nm => if p0.name != nm then ({ p0 with name := nm }, true) else (p0, false)
    | none => (p0, false)
  match description with
  | some d => if s1.1.description != d then ({ s1.1 with description := d }, true) else s1
  | none => s1

/-- Embeds `crud.update_project` (continued): the field-update phase is
`projApply`. -/
def update_project (db : DB) (project_id : Int) (name : Option String)
    (description : Option (Option String)) : DB × Except CrudError ProjectR :=
  match get_project_by_id db project_id with
  | .error e => (db, .error e)
  | .ok p0 =>
    let s2 := projApply p0 name description
    if s2.2 then
      if db.projects.any (fun q => q.name == s2.1.name && q.project_id != project_id) then
        (db, .error (.projectNameConflict s2.1.name))
      else
        ({ db with
            projects := db.projects.map (fun q => if q.project_id == project_id then s2.1 else q),
            commits := db.commits + 1 }, .ok s2.1)
    else (db, .ok s2.1)

/-- Embeds `crud.add_member_to_project`: project and user must exist;
`UserAlreadyProjectOwner` when the target user is the project's owner
(checked before anything else, for every role); `UserAlreadyMemberError`
when a membership row already exists; otherwise insert the row with the
given role and commit. The Python parameter `role` defaults to
"member"; callers of the model pass the role explicitly. -/
def add_member_to_project (db : DB) (user_id : Int) (project_id : Int)
    (role : String) : DB × Except CrudError ProjectMemberR :=
  match get_project_by_id db project_id with
  | .error e => (db, .error e)
  | .ok project =>
    match get_user_by_id db user_id with
    | .error e => (db, .error e)
    | .ok user =>
      if project.owner_user_id == user_id then
        (db, .error (.userAlreadyProjectOwner user_id project_id))
      else
        match db.members.find? (fun m => m.project_id == project_id && m.user_id == user.user_id) with
        | some _ => (db, .error (.userAlreadyMember user_id project_id))
        | none =>
          let m : ProjectMemberR := { project_id := project_id, user_id := user.user_id, role := role }
          ({ db with members := db.members ++ [m], commits := db.commits + 1 }, .ok m)

/-- Embeds `crud.get_project_member`: project and user must exist, then
lookup of the membership row by its composite key. -/
def get_project_member (db : DB) (project_id : Int) (user_id : Int) :
    Except CrudError ProjectMemberR :=
  match get_project_by_id db project_id with
  | .error e => .error e
  | .ok _ =>
    match get_user_by_id db user_id with
    | .error e => .error e
    | .ok _ =>
      match db.members.find? (fun m => m.project_id == project_id && m.user_id == user_id) with
      | some m => .ok m
      | none => .error (.memberNotFound project_id user_id)

/-- Embeds `crud.remove_member_from_project`: the membership must exist
(via `get_project_member`), then a DELETE of the row and a commit. -/
def remove_member_from_project (db : DB) (project_id : Int) (user_id : Int) :
    DB × Except CrudError Unit :=
  match get_project_member db project_id user_id with
  | .error e => (db, .error e)
  | .ok _ =>
    ({ db with
        members := db.members.filter (fun m => !(m.project_id == project_id && m.user_id == user_id)),
        commits := db.commits + 1 }, .ok ())

/-- Embeds `crud.update_member_role`: no-op (no commit) when the role is
unchanged, otherwise overwrite and commit. -/
def update_member_role (db : DB) (project_id : Int) (user_id : Int)
    (new_role : String) : DB × Except CrudError ProjectMemberR :=
  match get_project_member db project_id user_id with
  | .error e => (db, .error e)
  | .ok m =>
    if m.role == new_role then (db, .ok m)
    else
      let m2 := { m with role := new_role }
      ({ db with
          members := db.members.map (fun x =>
            if x.project_id == project_id && x.user_id == user_id then m2 else x),
          commits := db.commits + 1 }, .ok m2)

/-- Embeds `crud.transfer_project_ownership`. The Python code commits
the `owner_user_id` reassignment first, then calls
`remove_member_from_project` for the new owner (swallowing
`MemberNotFoundError`), then `add_member_to_project` for the old owner;
each of those helpers performs its own commit, and a domain error
raised by them propagates with the earlier commits left in place. -/
def transfer_project_ownership (db : DB) (project_id : Int)
    (new_owner_user_id : Int) : DB × Except CrudError ProjectR :=
  match get_project_by_id db project_id with
  | .error e => (db, .error e)
  | .ok project =>
    match get_user_by_id db new_owner_user_id with
    | .error e => (db, .error e)
    | .ok _ =>
      let old_owner_user_id := project.owner_user_id
      if old_owner_user_id == new_owner_user_id then (db, .ok project)
      else
        let project2 := { project with owner_user_id := new_owner_user_id }
        let db1 : DB :=
          { db with
              projects := db.projects.map (fun q =>
                if q.project_id == project_id then { q with owner_user_id := new_owner_user_id } else q),
              commits := db.commits + 1 }
        let r2 := remove_member_from_project db1 project_id new_owner_user_id
        let keep : DB × Except CrudError ProjectR :=
          let r3 := add_member_to_project r2.1 old_owner_user_id project_id "member"
          match r3.2 with
          | .ok _ => (r3.1, .ok project2)
          | .error e => (r3.1, .error e)
        match r2.2 with
        | .ok _ => keep
        | .error (.memberNotFound _ _) => keep
        | .error e => (r2.1, .error e)

/-- Embeds `crud.delete_project`: the project must exist; the delete
cascades (per the `ondelete` clauses and relationship cascades of
src/db/models.py) to its membership rows, tasks, invites and
`project_chats` links. -/
def delete_project (db : DB) (project_id : Int) : DB × Except CrudError Unit :=
  match get_project_by_id db project_id with
  | .error e => (db, .error e)
  | .ok _ =>
    ({ db with
        projects := db.projects.filter (fun p => p.project_id != project_id),
        members := db.members.filter (fun m => m.project_id != project_id),
        tasks := db.tasks.filter (fun t => t.project_id != project_id),
        invites := db.invites.filter (fun i => i.project_id != project_id),
        project_chats := db.project_chats.filter (fun pc => pc.1 != project_id),
        commits := db.commits + 1 }, .ok ())

/-- Maximum of a list of integers, `none` for the empty list: the value
of the SQL aggregate `MAX(task_id_in_project)` over the selected rows. -/
def maxOptInt (l : List Int) : Option Int :=
  l.foldl (fun acc b =>
    match acc with
    | none => some b
    | some a => some (max a b)) none

/-- Embeds `crud._get_next_task_id_in_project`: the project must exist;
the next per-project sequence number is
`MAX(task_id_in_project) + 1` over the project's tasks, where a missing
maximum (no tasks) counts as 0 — the Python expression
`(max_id or 0) + 1`. -/
def _get_next_task_id_in_project (db : DB) (project_id : Int) :
    Except CrudError Int :=
  match get_project_by_id db project_id with
  | .error e => .error e
  | .ok _ =>
    let ids := (db.tasks.filter (fun t => t.project_id == project_id)).map
      (fun t => t.task_id_in_project)
    .ok ((maxOptInt ids).getD 0 + 1)

/-- Embeds `crud.get_chat_by_chat_id`. -/
def get_chat_by_chat_id (db : DB) (chat_id : Int) : Except CrudError ChatR :=
  match db.chats.find? (fun c => c.chat_id == chat_id) with
  | some c => .ok c
  | none => .error (.chatNotFound chat_id)

/-- Embeds `crud.create_task`: project, creator, chat and (when given)
assignee must exist; the status must belong to the `TaskStatus`
enumeration; the task gets the next per-project sequence number and the
next global id, `completed_at` and the timestamps start at their column
defaults. -/
def create_task (db : DB) (project_id : Int) (creator_user_id : Int)
    (title : String) (description : String) (chat_id_created_in : Int)
    (assignee_user_id : Option Int) (status : String)
    (due_date : Option Int) : DB × Except CrudError TaskR :=
  match get_project_by_id db project_id with
  | .error e => (db, .error e)
  | .ok _ =>
  match get_user_by_id db creator_user_id with
  | .error e => (db, .error e)
  | .ok _ =>
  match get_chat_by_chat_id db chat_id_created_in with
  | .error e => (db, .error e)
  | .ok _ =>
  match (match assignee_user_id with
         | some a => get_user_by_id db a
         | none => .ok { user_id := creator_user_id, username := none,
                         first_name := "", is_bot := false }) with
  | .error e => (db, .error e)
  | .ok _ =>
  if !(valid_statuses.contains status) then
    (db, .error (.invalidTaskStatus status))
  else
    match _get_next_task_id_in_project db project_id with
    | .error e => (db, .error e)
    | .ok next_tip =>
      let t : TaskR := { task_id := db.next_task_id, project_id := project_id,
                         task_id_in_project := next_tip, title := title,
                         description := description, status := status,
                         creator_user_id := some creator_user_id,
                         assignee_user_id := assignee_user_id,
                         chat_id_created_in := some chat_id_created_in,
                         completed_at := none, due_date := due_date }
      ({ db with tasks := db.tasks ++ [t], next_task_id := db.next_task_id + 1,
                 commits := db.commits + 1 }, .ok t)

/-- Embeds `crud.get_task_by_id`. -/
def get_task_by_id (db : DB) (task_id : Int) : Except CrudError TaskR :=
  match db.tasks.find? (fun t => t.task_id == task_id) with
  | some t => .ok t
  | none => .error .taskNotFound

/-- Ordering used by the `ORDER BY Task.task_id_in_project` clause. -/
def taskLe (a b : TaskR) : Prop := a.task_id_in_project ≤ b.task_id_in_project

instance : DecidableRel taskLe := fun a b =>
  inferInstanceAs (Decidable (a.task_id_in_project ≤ b.task_id_in_project))

/-- Embeds `crud.get_tasks_for_project`: the project must exist; the
project filter plus the optional status and assignee filters (an
omitted filter is not applied), ordered by `task_id_in_project`
ascending. -/
def get_tasks_for_project (db : DB) (project_id : Int)
    (status : Option String) (assignee_user_id : Option Int) :
    Except CrudError (List TaskR) :=
  match get_project_by_id db project_id with
  | .error e => .error e
  | .ok _ =>
    let q0 := db.tasks.filter (fun t => t.project_id == project_id)
    let q1 := match status with
      | some s => q0.filter (fun t => t.status == s)
      | none => q0
    let q2 := match assignee_user_id with
      | some a => q1.filter (fun t => t.assignee_user_id == some a)
      | none => q1
    .ok (List.insertionSort taskLe q2)

/-- The title branch of `crud.update_task` (`none` means the Python
default `None`, i.e. the field is not supplied). -/
def updTitle (task : TaskR) (upd : Bool) (title : Option String) : TaskR × Bool :=
  match title with
  | some t => if task.title != t then ({ task with title := t }, true) else (task, upd)
  | none => (task, upd)

/-- The description branch of `crud.update_task`. -/
def updDescription (task : TaskR) (upd : Bool) (description : Option String) :
    TaskR × Bool :=
  match description with
  | some d => if task.description != d then ({ task with description := d }, true)
              else (task, upd)
  | none => (task, upd)

/-- The status branch of `crud.update_task`: validity is re-checked
against the enumeration, but only when the supplied status differs from
the stored one. -/
def updStatus (task : TaskR) (upd : Bool) (status : Option String) :
    Except CrudError (TaskR × Bool) :=
  match status with
  | none => .ok (task, upd)
  | some s =>
    if task.status != s then
      if valid_statuses.contains s then .ok ({ task with status := s }, true)
      else .error (.invalidTaskStatus s)
    else .ok (task, upd)

/-- The assignee branch of `crud.update_task`: the outer `Option` is
the explicit `sentinel` marker (`none` = not supplied); `some none`
clears the assignee; `some (some uid)` requires the user to exist. -/
def updAssignee (db : DB) (task : TaskR) (upd : Bool)
    (assignee_user_id : Option (Option Int)) : Except CrudError (TaskR × Bool) :=
  match assignee_user_id with
  | none => .ok (task, upd)
  | some a =>
    if task.assignee_user_id != a then
      match a with
      | some uid =>
        match get_user_by_id db uid with
        | .error e => .error e
        | .ok _ => .ok ({ task with assignee_user_id := a }, true)
      | none => .ok ({ task with assignee_user_id := none }, true)
    else .ok (task, upd)

/-- The due-date branch of `crud.update_task` (sentinel-marked like the
assignee). -/
def updDueDate (task : TaskR) (upd : Bool) (due_date : Option (Option Int)) :
    TaskR × Bool :=
  match due_date with
  | some dd => if task.due_date != dd then ({ task with due_date := dd }, true)
               else (task, upd)
  | none => (task, upd)

/-- The `completed_at` side effect of `crud.update_task`: computed from
the previously stored status against the status after all field
updates; entering `completed` stamps the current time, leaving it
clears the field. -/
def updCompletedAt (task : TaskR) (upd : Bool) (previous_status : String)
    (now : Int) : TaskR × Bool :=
  let is_now_completed := task.status == "completed"
  let was_before_completed := previous_status == "completed"
  if is_now_completed && !was_before_completed then
    ({ task with completed_at := some now }, true)
  else if !is_now_completed && was_before_completed then
    ({ task with completed_at := none }, true)
  else (task, upd)

/-- The in-memory field-update phase of `crud.update_task` on a fetched
row: the five independently optional updates in the code's order, then
the `completed_at` side effect computed from the previously stored
status (`task0.status`) against the status after all updates. An
invalid status or a missing new assignee aborts the phase. -/
def updPipeline (db : DB) (task0 : TaskR) (title : Option String)
    (description : Option String) (status : Option String)
    (assignee_user_id : Option (Option Int)) (due_date : Option (Option Int))
    (now : Int) : Except CrudError (TaskR × Bool) :=
  let s1 := updTitle task0 false title
  let s2 := updDescription s1.1 s1.2 description
  match updStatus s2.1 s2.2 status with
  | .error e => .error e
  | .ok s3 =>
    match updAssignee db s3.1 s3.2 assignee_user_id with
    | .error e => .error e
    | .ok s4 =>
      let s5 := updDueDate s4.1 s4.2 due_date
      .ok (updCompletedAt s5.1 s5.2 task0.status now)

/-- Embeds `crud.update_task`: fetch by global id, run the update phase
(`updPipeline`), and commit once only if something changed. An error in
the phase leaves the store untouched. -/
def update_task (db : DB) (now : Int) (task_id : Int) (title : Option String)
    (description : Option String) (status : Option String)
    (assignee_user_id : Option (Option Int)) (due_date : Option (Option Int)) :
    DB × Except CrudError TaskR :=
  match db.tasks.find? (fun t => t.task_id == task_id) with
  | none => (db, .error .taskNotFound)
  | some task0 =>
    match updPipeline db task0 title description status assignee_user_id due_date now with
    | .error e => (db, .error e)
    | .ok s6 =>
      if s6.2 then
        ({ db with
            tasks := db.tasks.map (fun t => if t.task_id == task_id then s6.1 else t),
            commits := db.commits + 1 }, .ok s6.1)
      else (db, .ok s6.1)

/-- Embeds `crud.delete_task`: fetch by global id, delete, commit. -/
def delete_task (db : DB) (task_id : Int) : DB × Except CrudError Unit :=
  match db.tasks.find? (fun t => t.task_id == task_id) with
  | none => (db, .error .taskNotFound)
  | some _ =>
    ({ db with tasks := db.tasks.filter (fun t => t.task_id != task_id),
               commits := db.commits + 1 }, .ok ())

/-- Embeds `crud.create_invite`: project and generating user must
exist; insert with `current_uses = 0` and the next sequence-assigned
id and commit; an `IntegrityError` (the unique `invite_code` column)
becomes `InviteCodeConflictError`. -/
def create_invite (db : DB) (project_id : Int) (generated_by_user_id : Int)
    (invite_code : String) (max_uses : Option Int) (expires_at : Option Int) :
    DB × Except CrudError InviteR :=
  match get_project_by_id db project_id with
  | .error e => (db, .error e)
  | .ok _ =>
  match get_user_by_id db generated_by_user_id with
  | .error e => (db, .error e)
  | .ok _ =>
  if db.invites.any (fun i => i.invite_code == invite_code) then
    (db, .error (.inviteCodeConflict invite_code))
  else
    let inv : InviteR := { invite_id := db.next_invite_id,
                           invite_code := invite_code, project_id := project_id,
                           max_uses := max_uses, current_uses := 0,
                           generated_by_user_id := generated_by_user_id,
                           expires_at := expires_at }
    ({ db with invites := db.invites ++ [inv],
               next_invite_id := db.next_invite_id + 1,
               commits := db.commits + 1 }, .ok inv)

/-- Embeds `crud.get_invite_by_code`. -/
def get_invite_by_code (db : DB) (invite_code : String) :
    Except CrudError InviteR :=
  match db.invites.find? (fun i => i.invite_code == invite_code) with
  | some i => .ok i
  | none => .error (.inviteNotFound invite_code)

/-- Embeds `crud.get_invite_by_id`. -/
def get_invite_by_id (db : DB) (invite_id : Int) : Except CrudError InviteR :=
  match db.invites.find? (fun i => i.invite_id == invite_id) with
  | some i => .ok i
  | none => .error (.inviteNotFound (toString invite_id))

/-- Embeds `crud.increment_invite_uses`: fetch by code, increment
`current_uses`, commit; when the incremented count reaches `max_uses`
the code still commits (and refreshes) but then raises
`InviteMaxUsesReachedError` instead of returning. -/
def increment_invite_uses (db : DB) (invite_code : String) :
    DB × Except CrudError InviteR :=
  match get_invite_by_code db invite_code with
  | .error e => (db, .error e)
  | .ok invite =>
    let invite2 := { invite with current_uses := invite.current_uses + 1 }
    let db2 : DB :=
      { db with
          invites := db.invites.map (fun i =>
            if i.invite_code == invite_code then invite2 else i),
          commits := db.commits + 1 }
    match invite2.max_uses with
    | some m =>
      if invite2.current_uses ≥ m then
        (db2, .error (.inviteMaxUsesReached invite_code))
      else (db2, .ok invite2)
    | none => (db2, .ok invite2)

/-- Embeds `crud.delete_invite_by_code`. -/
def delete_invite_by_code (db : DB) (invite_code : String) :
    DB × Except CrudError Unit :=
  match get_invite_by_code db invite_code with
  | .error e => (db, .error e)
  | .ok _ =>
    ({ db with invites := db.invites.filter (fun i => i.invite_code != invite_code),
               commits := db.commits + 1 }, .ok ())

/-- Embeds `crud.delete_invite_by_id`. -/
def delete_invite_by_id (db : DB) (invite_id : Int) :
    DB × Except CrudError Unit :=
  match get_invite_by_id db invite_id with
  | .error e => (db, .error e)
  | .ok _ =>
    ({ db with invites := db.invites.filter (fun i => i.invite_id != invite_id),
               commits := db.commits + 1 }, .ok ())

/-- Embeds `crud.create_chat`: insert and commit; an `IntegrityError`
(duplicate primary key `chat_id`) becomes `ChatAlreadyExistsError`. -/
def create_chat (db : DB) (chat_id : Int) (chat_type : String)
    (chat_title : Option String) : DB × Except CrudError ChatR :=
  if db.chats.any (fun c => c.chat_id == chat_id) then
    (db, .error (.chatAlreadyExists chat_id))
  else
    let c : ChatR := { chat_id := chat_id, title := chat_title,
                       chat_type := chat_type }
    ({ db with chats := db.chats ++ [c], commits := db.commits + 1 }, .ok c)

/-- Embeds `crud.add_chat_to_project`: project and chat must exist;
`ChatAlreadyLinkedToProjectError` if the association already holds,
otherwise append the pair to the join table and commit. -/
def add_chat_to_project (db : DB) (project_id : Int) (chat_id : Int) :
    DB × Except CrudError Unit :=
  match get_project_by_id db project_id with
  | .error e => (db, .error e)
  | .ok _ =>
  match get_chat_by_chat_id db chat_id with
  | .error e => (db, .error e)
  | .ok _ =>
  if db.project_chats.any (fun pc => pc.1 == project_id && pc.2 == chat_id) then
    (db, .error (.chatAlreadyLinked chat_id project_id))
  else
    ({ db with project_chats := db.project_chats ++ [(project_id, chat_id)],
               commits := db.commits + 1 }, .ok ())

/-- Embeds `crud.remove_chat_from_project`: the project must exist;
`ChatNotLinkedToProjectError` if the association does not hold,
otherwise remove the pair and commit. -/
def remove_chat_from_project (db : DB) (project_id : Int) (chat_id : Int) :
    DB × Except CrudError Unit :=
  match get_project_by_id db project_id with
  | .error e => (db, .error e)
  | .ok _ =>
  if db.project_chats.any (fun pc => pc.1 == project_id && pc.2 == chat_id) then
    ({ db with
        project_chats := db.project_chats.filter (fun pc =>
          !(pc.1 == project_id && pc.2 == chat_id)),
        commits := db.commits + 1 }, .ok ())
  else
    (db, .error (.chatNotLinked chat_id project_id))

/-- Embeds `crud.handle_invite_acceptance`: the compound acceptance
workflow. Checks, in the code's order and all before the membership
insert: (1) the invite exists; (2) it is not expired against the
current time `now`; (3) `current_uses` has not already reached
`max_uses`; (4) the accepting user exists; (5) the user does not
already hold a membership in the invite's project (a
`MemberNotFoundError` from the probe means the path is clear; other
probe errors propagate). Then the membership is added with role
"member" and `increment_invite_uses` is called; an error from the
increment (in particular `InviteMaxUsesReachedError` when this use
reaches the limit) propagates with the membership left committed, and
only an increment that returns normally can reach the
exhaustion-triggered invite deletion. -/
def handle_invite_acceptance (db : DB) (now : Int) (accepting_user_id : Int)
    (invite_code : String) : DB × Except CrudError ProjectMemberR :=
  match get_invite_by_code db invite_code with
  | .error e => (db, .error e)
  | .ok invite =>
    if (match invite.expires_at with
        | some t => decide (t < now)
        | none => false) then
      (db, .error (.inviteExpired invite_code))
    else if (match invite.max_uses with
             | some m => decide (invite.current_uses ≥ m)
             | none => false) then
      (db, .error (.inviteMaxUsesReached invite_code))
    else
      match get_user_by_id db accepting_user_id with
      | .error e => (db, .error e)
      | .ok _ =>
        match get_project_member db invite.project_id accepting_user_id with
        | .ok _ => (db, .error (.userAlreadyMember accepting_user_id invite.project_id))
        | .error (.memberNotFound _ _) =>
          let r1 := add_member_to_project db accepting_user_id invite.project_id "member"
          match r1.2 with
          | .error e => (r1.1, .error e)
          | .ok new_membership =>
            let r2 := increment_invite_uses r1.1 invite_code
            match r2.2 with
            | .error e => (r2.1, .error e)
            | .ok updated_invite =>
              let invite_exhausted :=
                match updated_invite.max_uses with
                | some m => decide (updated_invite.current_uses ≥ m)
                | none => false
              if invite_exhausted then
                let r3 := delete_invite_by_code r2.1 invite_code
                match r3.2 with
                | .error e => (r3.1, .error e)
                | .ok _ => (r3.1, .ok new_membership)
              else (r2.1, .ok new_membership)
        | .error e => (db, .error e)

/-- The first loop of `crud.get_user_projects_with_roles`: walk the
user's membership rows, resolve each row's project through the
`ProjectMember.project` relationship, and append `(project, stored
role)` for every project id not yet processed. -/
def gupwrMembershipsLoop (db : DB) :
    List ProjectMemberR → List (ProjectR × String) × List Int →
    List (ProjectR × String) × List Int
  | [], acc => acc
  | m :: rest, acc =>
    match db.projects.find? (fun p => p.project_id == m.project_id) with
    | some project =>
      if acc.2.contains project.project_id then
        gupwrMembershipsLoop db rest acc
      else
        gupwrMembershipsLoop db rest
          (acc.1 ++ [(project, m.role)], acc.2 ++ [project.project_id])
    | none => gupwrMembershipsLoop db rest acc

/-- The second loop of `crud.get_user_projects_with_roles`: walk the
projects the user owns and append `(project, "owner")` for every
project id not yet processed. -/
def gupwrOwnedLoop :
    List ProjectR → List (ProjectR × String) × List Int →
    List (ProjectR × String) × List Int
  | [], acc => acc
  | p :: rest, acc =>
    if acc.2.contains p.project_id then gupwrOwnedLoop rest acc
    else gupwrOwnedLoop rest (acc.1 ++ [(p, "owner")], acc.2 ++ [p.project_id])

/-- Embeds `crud.get_user_projects_with_roles`: the union of the
membership query and the ownership query, de-duplicated by project id
through the `processed_project_ids` set, membership rows walked
first. -/
def get_user_projects_with_roles (db : DB) (user_id : Int) :
    List (ProjectR × String) :=
  let memberships := db.members.filter (fun m => m.user_id == user_id)
  let owned_projects := db.projects.filter (fun p => p.owner_user_id == user_id)
  (gupwrOwnedLoop owned_projects (gupwrMembershipsLoop db memberships ([], []))).1

/-- A store with two users, one project owned by user 1, and one
fresh invite with code "ABC" and `max_uses = 1` for that project. -/
def dbInviteOne : DB :=
  { users := [{ user_id := 1, username := none, first_name := "a", is_bot := false },
              { user_id := 2, username := none, first_name := "b", is_bot := false }],
    projects := [{ project_id := 10, name := "Alpha", owner_user_id := 1, description := none }],
    members := [], tasks := [],
    chats := [],
    invites := [{ invite_id := 1, invite_code := "ABC", project_id := 10,
                  max_uses := some 1, current_uses := 0,
                  generated_by_user_id := 1, expires_at := none }],
    project_chats := [], next_project_id := 11, next_task_id := 1,
    next_invite_id := 2, commits := 0 }

/-- Claim C1, evaluated at the failing input: on the store
`dbInviteOne` (invite "ABC" with `max_uses = 1`, `current_uses = 0`),
the very first — hence N-th — acceptance by user 2 creates and commits
the membership but the call raises `InviteMaxUsesReachedError` (from
`increment_invite_uses`, which commits the increment and then raises
when the count reaches the limit), and afterwards the invite is still
retrievable by its code with `current_uses = 1`: the N-th acceptance
neither returns successfully nor deletes the invite, contradicting the
claim that exactly N acceptances succeed and that the invite record no
longer exists after the N-th. The deletion branch of
`handle_invite_acceptance` is unreachable because `increment_invite_uses`
raises exactly when the branch's own exhaustion condition holds. -/
theorem invite_exhaustion_not_deleted_code_bug :
    (handle_invite_acceptance dbInviteOne 0 2 "ABC").2 =
      .error (.inviteMaxUsesReached "ABC") ∧
    (handle_invite_acceptance dbInviteOne 0 2 "ABC").1.members =
      [{ project_id := 10, user_id := 2, role := "member" }] ∧
    get_invite_by_code (handle_invite_acceptance dbInviteOne 0 2 "ABC").1 "ABC" =
      .ok { invite_id := 1, invite_code := "ABC", project_id := 10,
            max_uses := some 1, current_uses := 1,
            generated_by_user_id := 1, expires_at := none } := by
  decide

/-- A store where the owner of project 1 (user 1) also holds a stale
membership row in that project with role "helper". -/
def dbStaleForTransfer : DB :=
  { users := [{ user_id := 1, username := none, first_name := "a", is_bot := false },
              { user_id := 2, username := none, first_name := "b", is_bot := false }],
    projects := [{ project_id := 1, name := "A", owner_user_id := 1, description := none }],
    members := [{ project_id := 1, user_id := 1, role := "helper" }],
    tasks := [], chats := [], invites := [], project_chats := [],
    next_project_id := 2, next_task_id := 1, next_invite_id := 1, commits := 0 }

/-- Counterexample to claim C2: on `dbStaleForTransfer` (project 1
exists, user 2 exists and differs from the current owner 1),
`transfer_project_ownership` fails with `UserAlreadyMemberError` at the
final add-membership step, yet the returned store has the owner change
to user 2 already committed (one commit happened) and the membership
rows unreconciled — a failure in a later step did not leave the earlier
effects undone, so the sequence is not a single transaction. -/
theorem transfer_ownership_not_atomic_counterexample :
    (transfer_project_ownership dbStaleForTransfer 1 2).2 =
      .error (.userAlreadyMember 1 1) ∧
    (transfer_project_ownership dbStaleForTransfer 1 2).1.projects =
      [{ project_id := 1, name := "A", owner_user_id := 2, description := none }] ∧
    (transfer_project_ownership dbStaleForTransfer 1 2).1.members =
      [{ project_id := 1, user_id := 1, role := "helper" }] ∧
    (transfer_project_ownership dbStaleForTransfer 1 2).1.commits = 1 := by
  decide

/-- A store where user 1 owns project 10 and also holds a stale
membership row in it with stored role "member". -/
def dbStaleOwnerMember : DB :=
  { users := [{ user_id := 1, username := none, first_name := "a", is_bot := false }],
    projects := [{ project_id := 10, name := "Alpha", owner_user_id := 1, description := none }],
    members := [{ project_id := 10, user_id := 1, role := "member" }],
    tasks := [], chats := [], invites := [], project_chats := [],
    next_project_id := 11, next_task_id := 1, next_invite_id := 1, commits := 0 }

/-- Counterexample to claim C3: on `dbStaleOwnerMember`, user 1 owns
project 10 while a stale membership row for them exists, and
`get_user_projects_with_roles` returns the stored membership role
"member" for that project, not the synthetic role "owner": the
membership query is walked first and the ownership query is
de-duplicated away. -/
theorem owned_project_stale_role_counterexample :
    get_user_projects_with_roles dbStaleOwnerMember 1 =
      [({ project_id := 10, name := "Alpha", owner_user_id := 1,
          description := none }, "member")] ∧
    ∀ x ∈ get_user_projects_with_roles dbStaleOwnerMember 1, x.2 ≠ "owner" := by
  decide

/-- Concrete task rows used by several witnesses. -/
def taskT1 : TaskR :=
  { task_id := 1, project_id := 10, task_id_in_project := 1, title := "T1",
    description := "d", status := "new", creator_user_id := some 1,
    assignee_user_id := none, chat_id_created_in := some 100,
    completed_at := none, due_date := none }

/-- Second concrete task row, holding the project's highest
`task_id_in_project`. -/
def taskT2 : TaskR :=
  { task_id := 2, project_id := 10, task_id_in_project := 2, title := "T2",
    description := "d", status := "new", creator_user_id := some 1,
    assignee_user_id := none, chat_id_created_in := some 100,
    completed_at := none, due_date := none }

/-- A store with one project (id 10) holding tasks numbered 1 and 2,
task 2 being the one with the highest `task_id_in_project`. -/
def dbTasksTwo : DB :=
  { users := [{ user_id := 1, username := none, first_name := "a", is_bot := false }],
    projects := [{ project_id := 10, name := "Alpha", owner_user_id := 1, description := none }],
    members := [],
    tasks := [taskT1, taskT2],
    chats := [{ chat_id := 100, title := none, chat_type := "group" }],
    invites := [], project_chats := [],
    next_project_id := 11, next_task_id := 3, next_invite_id := 1, commits := 0 }

/-- Counterexample to claim C5: in `dbTasksTwo` a task with
`task_id_in_project = 2` (the project's highest number) exists; after
deleting it, the next per-project sequence number is again 2, not
old-max + 1 = 3 — the number held by the deleted maximal task is
reused, because the next number is recomputed as the maximum over the
remaining rows. -/
theorem task_number_reused_after_max_delete_counterexample :
    (∃ t ∈ dbTasksTwo.tasks, t.project_id = 10 ∧ t.task_id_in_project = 2) ∧
    (delete_task dbTasksTwo 2).2 = .ok () ∧
    _get_next_task_id_in_project (delete_task dbTasksTwo 2).1 10 = .ok 2 := by
  decide

/-- Generic helper: mapping a function over a list commutes with
`find?` when the function does not change the predicate's verdict. -/
theorem find?_map_pred_comm {α : Type} (f : α → α) (p : α → Bool)
    (h : ∀ x, p (f x) = p x) (l : List α) :
    (l.map f).find? p = (l.find? p).map f := by
  rw [List.find?_map]
  have hp : (p ∘ f) = p := funext h
  rw [hp]

/-- Specification-side rendering of the add-member contract, written
from the claim's words: the corresponding NotFound variant when the
project or the user does not exist; a Conflict when the target user is
the project's owner, whatever the requested role; a Conflict when a
membership row already exists; otherwise a membership row with exactly
the caller-specified role is inserted and returned. -/
def add_member_to_project_spec (db : DB) (user_id : Int) (project_id : Int)
    (role : String) : DB × Except CrudError ProjectMemberR :=
  match db.projects.find? (fun p => p.project_id == project_id) with
  | none => (db, .error (.projectNotFound project_id))
  | some project =>
    match db.users.find? (fun u => u.user_id == user_id) with
    | none => (db, .error (.userNotFound user_id))
    | some _ =>
      if project.owner_user_id == user_id then
        (db, .error (.userAlreadyProjectOwner user_id project_id))
      else if db.members.any (fun m => m.project_id == project_id && m.user_id == user_id) then
        (db, .error (.userAlreadyMember user_id project_id))
      else
        let m : ProjectMemberR := { project_id := project_id, user_id := user_id, role := role }
        ({ db with members := db.members ++ [m], commits := db.commits + 1 }, .ok m)

/-- Claim C8: the implementation of add-member coincides with the
specification contract `add_member_to_project_spec` on every store and
every argument: Conflict when the target user is the project's owner
(for all roles), Conflict when the membership row exists, otherwise an
insert with exactly the caller-specified role, and the matching
NotFound variants for a missing project or user. -/
theorem add_member_matches_spec (db : DB) (user_id : Int) (project_id : Int)
    (role : String) :
    add_member_to_project db user_id project_id role =
      add_member_to_project_spec db user_id project_id role := by
  unfold add_member_to_project add_member_to_project_spec get_project_by_id get_user_by_id
  cases hp : db.projects.find? (fun p => p.project_id == project_id) with
  | none => rfl
  | some project =>
    cases hu : db.users.find? (fun u => u.user_id == user_id) with
    | none => rfl
    | some user =>
      have huid : user.user_id = user_id := by
        have := List.find?_some hu
        simpa using this
      by_cases hown : project.owner_user_id == user_id
      · simp [hown]
      · simp only [Bool.not_eq_true] at hown
        simp only [hown, Bool.false_eq_true, if_false, huid]
        cases hm : db.members.find? (fun m => m.project_id == project_id && m.user_id == user_id) with
        | some mr =>
          have hany : db.members.any (fun m => m.project_id == project_id && m.user_id == user_id) = true := by
            rw [List.any_eq_true]
            have h3 := @List.find?_some _
              (fun m => m.project_id == project_id && m.user_id == user_id) mr db.members hm
            exact ⟨mr, List.mem_of_find?_eq_some hm, h3⟩
          simp [hany]
        | none =>
          have hany : db.members.any (fun m => m.project_id == project_id && m.user_id == user_id) = false := by
            rw [List.any_eq_false]
            intro x hx
            simpa using List.find?_eq_none.mp hm x hx
          simp [hany]

/-- After the update phase, the row carries exactly the caller-provided
identity fields (and keeps its primary key). -/
theorem upsertApply_fields (u : UserR) (un : Option String) (fn : String)
    (ib : Bool) :
    (upsertApply u un fn ib).1 =
      { user_id := u.user_id, username := un, first_name := fn, is_bot := ib } := by
  obtain ⟨uA, uB, uC, uD⟩ := u
  unfold upsertApply
  cases un with
  | none =>
    cases uB with
    | none => by_cases h2 : uC = fn <;> by_cases h3 : uD = ib <;> simp [h2, h3]
    | some s0 => by_cases h2 : uC = fn <;> by_cases h3 : uD = ib <;> simp [h2, h3]
  | some sn =>
    by_cases h1 : uB = some sn
    · subst h1
      by_cases h2 : uC = fn <;> by_cases h3 : uD = ib <;> simp [h2, h3]
    · by_cases h2 : uC = fn <;> by_cases h3 : uD = ib <;> simp [h1, h2, h3]

/-- A row that already carries the caller-provided fields is left
untouched by the update phase, with `needs_update` false. -/
theorem upsertApply_noop (uid : Int) (un : Option String) (fn : String)
    (ib : Bool) :
    upsertApply { user_id := uid, username := un, first_name := fn, is_bot := ib }
      un fn ib =
      ({ user_id := uid, username := un, first_name := fn, is_bot := ib }, false) := by
  unfold upsertApply
  cases un <;> simp

/-- When the update phase reports no change, the row is returned as it
was stored. -/
theorem upsertApply_snd_false (u : UserR) (un : Option String) (fn : String)
    (ib : Bool) (h : (upsertApply u un fn ib).2 = false) :
    (upsertApply u un fn ib).1 = u := by
  revert h
  obtain ⟨uA, uB, uC, uD⟩ := u
  unfold upsertApply
  cases un with
  | none =>
    cases uB <;> by_cases h2 : uC = fn <;> by_cases h3 : uD = ib <;> simp_all
  | some sn =>
    by_cases h1 : uB = some sn
    · subst h1
      by_cases h2 : uC = fn <;> by_cases h3 : uD = ib <;> simp_all
    · by_cases h2 : uC = fn <;> by_cases h3 : uD = ib <;> simp_all [h1]

/-- Claim C7: the upsert-user operation is idempotent. If a call
returns a row successfully, repeating the call with the identical field
values on the resulting store performs no write at all — the store,
including its commit counter, is returned unchanged — and returns an
entity equal to the first call's result. (When the user already exists,
the underlying operation flips exactly the differing fields and commits
only if one changed, which is what makes the repeat a no-op.) -/
theorem upsert_user_idempotent (db : DB) (user_id : Int)
    (username : Option String) (first_name : String) (is_bot : Bool)
    (db1 : DB) (u1 : UserR)
    (h : get_or_create_and_update_user db user_id username first_name is_bot =
      (db1, .ok u1)) :
    get_or_create_and_update_user db1 user_id username first_name is_bot =
      (db1, .ok u1) := by
  have hkey : db1.users.find? (fun x => x.user_id == user_id) = some u1 ∧
      u1 = { user_id := u1.user_id, username := username,
             first_name := first_name, is_bot := is_bot } := by
    unfold get_or_create_and_update_user at h
    cases hf : db.users.find? (fun x => x.user_id == user_id) with
    | none =>
      have hg : get_user_by_id db user_id = .error (.userNotFound user_id) := by
        unfold get_user_by_id
        rw [hf]
      rw [hg] at h
      simp only [] at h
      unfold create_user at h
      simp only [] at h
      split at h
      · simp at h
      · rw [Prod.mk.injEq] at h
        obtain ⟨hdb, hexc⟩ := h
        rw [Except.ok.injEq] at hexc
        refine ⟨?_, ?_⟩
        · rw [← hdb]
          dsimp only
          rw [List.find?_append, hf]
          simp [← hexc]
        · rw [← hexc]
    | some user0 =>
      have hg : get_user_by_id db user_id = .ok user0 := by
        unfold get_user_by_id
        rw [hf]
      rw [hg] at h
      simp only [] at h
      have hid : user0.user_id = user_id := by
        have := @List.find?_some _ (fun x => x.user_id == user_id) user0 db.users hf
        simpa using this
      have hfields := upsertApply_fields user0 username first_name is_bot
      by_cases hflag : (upsertApply user0 username first_name is_bot).2 = true
      · rw [if_pos hflag, Prod.mk.injEq] at h
        obtain ⟨hdb, hexc⟩ := h
        rw [Except.ok.injEq] at hexc
        refine ⟨?_, ?_⟩
        · rw [← hdb]
          dsimp only
          rw [find?_map_pred_comm
              (fun x => if x.user_id == user_id then (upsertApply user0 username first_name is_bot).1 else x)
              (fun x => x.user_id == user_id)
              (by
                intro x
                dsimp only
                by_cases hx : (x.user_id == user_id) = true
                · rw [if_pos hx, hfields]
                  dsimp only
                  rw [hx]
                  simp [hid]
                · rw [if_neg hx])]
          rw [hf]
          have hc : (user0.user_id == user_id) = true := by simp [hid]
          simp [hc, hexc]
          intro hcon
          exact absurd hid hcon
        · rw [← hexc, hfields]
      · rw [if_neg hflag, Prod.mk.injEq] at h
        obtain ⟨hdb, hexc⟩ := h
        rw [Except.ok.injEq] at hexc
        have hstay : (upsertApply user0 username first_name is_bot).1 = user0 :=
          upsertApply_snd_false user0 username first_name is_bot
            (by simpa using hflag)
        refine ⟨?_, ?_⟩
        · rw [← hdb, hf, ← hexc, hstay]
        · rw [← hexc, hfields]
  obtain ⟨hfind1, hshape⟩ := hkey
  unfold get_or_create_and_update_user get_user_by_id
  rw [hfind1]
  dsimp only
  conv_lhs => rw [hshape]
  rw [upsertApply_noop]
  simp [← hshape]

/-- Witness for the idempotence theorem at a concrete input: creating a
fresh user and repeating the call with identical fields. -/
theorem upsert_user_idempotent_witness :
    get_or_create_and_update_user emptyDB 1 (some "al") "Alice" false =
      ({ emptyDB with
          users := [{ user_id := 1, username := some "al",
                      first_name := "Alice", is_bot := false }],
          commits := 1 },
        .ok { user_id := 1, username := some "al",
              first_name := "Alice", is_bot := false }) ∧
    get_or_create_and_update_user
      { emptyDB with
        users := [{ user_id := 1, username := some "al",
                    first_name := "Alice", is_bot := false }],
        commits := 1 } 1 (some "al") "Alice" false =
      ({ emptyDB with
          users := [{ user_id := 1, username := some "al",
                      first_name := "Alice", is_bot := false }],
          commits := 1 },
        .ok { user_id := 1, username := some "al",
              first_name := "Alice", is_bot := false }) :=
  ⟨by decide,
   upsert_user_idempotent emptyDB 1 (some "al") "Alice" false _ _ (by decide)⟩

/-- The title update leaves status and `completed_at` alone. -/
theorem updTitle_pres (t : TaskR) (u : Bool) (ttl : Option String) :
    (updTitle t u ttl).1.status = t.status ∧
    (updTitle t u ttl).1.completed_at = t.completed_at := by
  unfold updTitle
  cases ttl
  · exact ⟨rfl, rfl⟩
  · dsimp only
    split
    · exact ⟨rfl, rfl⟩
    · exact ⟨rfl, rfl⟩

/-- The description update leaves status and `completed_at` alone. -/
theorem updDescription_pres (t : TaskR) (u : Bool) (dsc : Option String) :
    (updDescription t u dsc).1.status = t.status ∧
    (updDescription t u dsc).1.completed_at = t.completed_at := by
  unfold updDescription
  cases dsc
  · exact ⟨rfl, rfl⟩
  · dsimp only
    split
    · exact ⟨rfl, rfl⟩
    · exact ⟨rfl, rfl⟩

/-- When the status update succeeds, the resulting status is the
supplied one (or the stored one when none is supplied), and
`completed_at` is untouched. -/
theorem updStatus_ok (t : TaskR) (u : Bool) (st : Option String)
    (s : TaskR × Bool) (h : updStatus t u st = .ok s) :
    s.1.status = st.getD t.status ∧
    s.1.completed_at = t.completed_at := by
  unfold updStatus at h
  cases st with
  | none =>
    rw [Except.ok.injEq] at h
    rw [← h]
    exact ⟨rfl, rfl⟩
  | some x =>
    dsimp only at h
    by_cases hne : (t.status != x) = true
    · rw [if_pos hne] at h
      split at h
      · rw [Except.ok.injEq] at h
        rw [← h]
        exact ⟨rfl, rfl⟩
      · exact absurd h (by simp)
    · rw [if_neg hne] at h
      rw [Except.ok.injEq] at h
      rw [← h]
      simp only [Bool.not_eq_true, bne_eq_false_iff_eq] at hne
      exact ⟨hne, rfl⟩

/-- When the assignee update succeeds, status and `completed_at` are
untouched. -/
theorem updAssignee_ok (db : DB) (t : TaskR) (u : Bool)
    (asg : Option (Option Int)) (s : TaskR × Bool)
    (h : updAssignee db t u asg = .ok s) :
    s.1.status = t.status ∧ s.1.completed_at = t.completed_at := by
  unfold updAssignee at h
  cases asg with
  | none =>
    rw [Except.ok.injEq] at h
    rw [← h]
    exact ⟨rfl, rfl⟩
  | some a =>
    dsimp only at h
    by_cases hne : (t.assignee_user_id != a) = true
    · rw [if_pos hne] at h
      cases a with
      | none =>
        rw [Except.ok.injEq] at h
        rw [← h]
        exact ⟨rfl, rfl⟩
      | some uid =>
        dsimp only at h
        cases hu : get_user_by_id db uid with
        | error e =>
          rw [hu] at h
          exact absurd h (by simp)
        | ok w =>
          rw [hu] at h
          simp only [] at h
          rw [Except.ok.injEq] at h
          rw [← h]
          exact ⟨rfl, rfl⟩
    · rw [if_neg hne] at h
      rw [Except.ok.injEq] at h
      rw [← h]
      exact ⟨rfl, rfl⟩

/-- The due-date update leaves status and `completed_at` alone. -/
theorem updDueDate_pres (t : TaskR) (u : Bool) (dd : Option (Option Int)) :
    (updDueDate t u dd).1.status = t.status ∧
    (updDueDate t u dd).1.completed_at = t.completed_at := by
  unfold updDueDate
  cases dd
  · exact ⟨rfl, rfl⟩
  · dsimp only
    split
    · exact ⟨rfl, rfl⟩
    · exact ⟨rfl, rfl⟩

/-- Characterisation of the `completed_at` side effect: entering
`completed` (relative to the previously stored status) stamps `now`,
leaving it clears the field, anything else leaves it alone; the status
itself is untouched. -/
theorem updCompletedAt_char (t : TaskR) (u : Bool) (prev : String) (now : Int) :
    (updCompletedAt t u prev now).1.status = t.status ∧
    (updCompletedAt t u prev now).1.completed_at =
      (if t.status = "completed" ∧ prev ≠ "completed" then some now
       else if t.status ≠ "completed" ∧ prev = "completed" then none
       else t.completed_at) := by
  unfold updCompletedAt
  by_cases h1 : t.status = "completed" <;> by_cases h2 : prev = "completed" <;>
    simp [h1, h2]

/-- When the update phase succeeds, the final status is the supplied
one (or the stored one), and `completed_at` follows the
enter/leave-`completed` rule computed from the stored status against
the final status. -/
theorem updPipeline_ok (db : DB) (t0 : TaskR) (ttl dsc st : Option String)
    (asg dd : Option (Option Int)) (now : Int) (s6 : TaskR × Bool)
    (h : updPipeline db t0 ttl dsc st asg dd now = .ok s6) :
    s6.1.status = st.getD t0.status ∧
    s6.1.completed_at =
      (if s6.1.status = "completed" ∧ t0.status ≠ "completed" then some now
       else if s6.1.status ≠ "completed" ∧ t0.status = "completed" then none
       else t0.completed_at) := by
  unfold updPipeline at h
  simp only [] at h
  cases h3 : updStatus (updDescription (updTitle t0 false ttl).1
      (updTitle t0 false ttl).2 dsc).1
      (updDescription (updTitle t0 false ttl).1 (updTitle t0 false ttl).2 dsc).2 st with
  | error e =>
    rw [h3] at h
    exact absurd h (by simp)
  | ok s3 =>
    rw [h3] at h
    simp only [] at h
    cases h4 : updAssignee db s3.1 s3.2 asg with
    | error e =>
      rw [h4] at h
      exact absurd h (by simp)
    | ok s4 =>
      rw [h4] at h
      simp only [] at h
      rw [Except.ok.injEq] at h
      have hT := updTitle_pres t0 false ttl
      have hD := updDescription_pres (updTitle t0 false ttl).1
        (updTitle t0 false ttl).2 dsc
      have hS := updStatus_ok _ _ st s3 h3
      have hA := updAssignee_ok db s3.1 s3.2 asg s4 h4
      have hDD := updDueDate_pres s4.1 s4.2 dd
      have hC := updCompletedAt_char (updDueDate s4.1 s4.2 dd).1
        (updDueDate s4.1 s4.2 dd).2 t0.status now
      rw [← h]
      have hstat : (updDueDate s4.1 s4.2 dd).1.status = st.getD t0.status := by
        rw [hDD.1, hA.1, hS.1, hD.1, hT.1]
      have hca : (updDueDate s4.1 s4.2 dd).1.completed_at = t0.completed_at := by
        rw [hDD.2, hA.2, hS.2, hD.2, hT.2]
      refine ⟨by rw [hC.1, hstat], ?_⟩
      rw [hC.2, hC.1, hca, hstat]

/-- Claim C6: for an existing task, a successful `update_task` sets the
final status to the supplied one (or keeps the stored one), and sets
`completed_at` to the current time exactly when the transition from the
previously stored status to the final status enters `completed`, clears
it exactly when the transition leaves `completed`, and keeps it
unchanged otherwise. In particular updating a non-completed task to
status "completed" yields `completed_at = some now`, and a subsequent
update back to "new" clears it to `none`. -/
theorem update_task_completed_at (db : DB) (now : Int) (task_id : Int)
    (title description status : Option String)
    (assignee_user_id due_date : Option (Option Int)) (t0 : TaskR)
    (db1 : DB) (t1 : TaskR)
    (hfind : db.tasks.find? (fun t => t.task_id == task_id) = some t0)
    (h : update_task db now task_id title description status assignee_user_id
        due_date = (db1, .ok t1)) :
    t1.status = status.getD t0.status ∧
    t1.completed_at =
      (if t1.status = "completed" ∧ t0.status ≠ "completed" then some now
       else if t1.status ≠ "completed" ∧ t0.status = "completed" then none
       else t0.completed_at) := by
  unfold update_task at h
  rw [hfind] at h
  simp only [] at h
  cases hp : updPipeline db t0 title description status assignee_user_id due_date now with
  | error e =>
    rw [hp] at h
    exact absurd h (by simp)
  | ok s6 =>
    rw [hp] at h
    simp only [] at h
    have hchar := updPipeline_ok db t0 title description status assignee_user_id
      due_date now s6 hp
    have ht1 : s6.1 = t1 := by
      by_cases hfl : s6.2 = true
      · rw [if_pos hfl, Prod.mk.injEq] at h
        simpa using h.2
      · rw [if_neg hfl, Prod.mk.injEq] at h
        simpa using h.2
    rw [← ht1]
    exact hchar

/-- The row `taskT1` as left by a successful update to status
"completed" at time 5. -/
def taskT1completed : TaskR :=
  { task_id := 1, project_id := 10, task_id_in_project := 1, title := "T1",
    description := "d", status := "completed", creator_user_id := some 1,
    assignee_user_id := none, chat_id_created_in := some 100,
    completed_at := some 5, due_date := none }

/-- Witness for the `completed_at` theorem at a concrete input:
updating the non-completed `taskT1` to status "completed" at time 5
stamps `completed_at = some 5`. -/
theorem update_task_completed_at_witness :
    dbTasksTwo.tasks.find? (fun t => t.task_id == 1) = some taskT1 ∧
    update_task dbTasksTwo 5 1 none none (some "completed") none none =
      ((update_task dbTasksTwo 5 1 none none (some "completed") none none).1,
        .ok taskT1completed) ∧
    (taskT1completed.status = (some "completed" : Option String).getD taskT1.status ∧
     taskT1completed.completed_at =
       (if taskT1completed.status = "completed" ∧ taskT1.status ≠ "completed" then
          some (5 : Int)
        else if taskT1completed.status ≠ "completed" ∧ taskT1.status = "completed" then
          none
        else taskT1.completed_at)) :=
  ⟨by decide, by decide,
   update_task_completed_at dbTasksTwo 5 1 none none (some "completed") none none
     taskT1 ((update_task dbTasksTwo 5 1 none none (some "completed") none none).1)
     taskT1completed (by decide) (by decide)⟩

instance : IsTotal TaskR taskLe :=
  ⟨fun a b => Int.le_total a.task_id_in_project b.task_id_in_project⟩

instance : IsTrans TaskR taskLe :=
  ⟨fun _ _ _ hab hbc => le_trans hab hbc⟩

/-- Sorting a selection of a project's tasks by `task_id_in_project`
keeps exactly its members and, when the project's task numbers are
pairwise distinct (the `uq_project_task_identifier` unique constraint),
yields a strictly increasing sequence. -/
theorem tasks_sorted_strict (db : DB) (pid : Int) (q l : List TaskR)
    (hq : q.Sublist (db.tasks.filter (fun t => t.project_id == pid)))
    (hl : List.insertionSort taskLe q = l)
    (hnd : ((db.tasks.filter (fun t => t.project_id == pid)).map
      (fun t => t.task_id_in_project)).Nodup) :
    (∀ t, t ∈ l ↔ t ∈ q) ∧
    l.Pairwise (fun a b => a.task_id_in_project < b.task_id_in_project) := by
  subst hl
  have hperm := List.perm_insertionSort taskLe q
  constructor
  · intro t
    exact hperm.mem_iff
  · have hsorted : (List.insertionSort taskLe q).Pairwise taskLe :=
      List.sorted_insertionSort taskLe q
    have hkeysq : (q.map (fun t => t.task_id_in_project)).Nodup :=
      (hq.map (fun t => t.task_id_in_project)).nodup hnd
    have hkeysl : ((List.insertionSort taskLe q).map
        (fun t => t.task_id_in_project)).Nodup := by
      rw [List.Perm.nodup_iff (hperm.map (fun t => t.task_id_in_project))]
      exact hkeysq
    have hne : (List.insertionSort taskLe q).Pairwise
        (fun a b => a.task_id_in_project ≠ b.task_id_in_project) := by
      rw [← List.pairwise_map]
      exact hkeysl
    exact (hsorted.and hne).imp (fun h => lt_of_le_of_ne h.1 h.2)

/-- Claim C10: for an existing project, `get_tasks_for_project` returns
exactly the tasks of that project satisfying the optional status and
assignee filters (conjunctively; an omitted filter excludes nothing),
in strictly ascending `task_id_in_project` order — given the schema's
uniqueness of `(project_id, task_id_in_project)` stated as the
distinctness of the project's task numbers. -/
theorem get_tasks_for_project_spec (db : DB) (pid : Int) (st : Option String)
    (asg : Option Int) (l : List TaskR)
    (hnd : ((db.tasks.filter (fun t => t.project_id == pid)).map
      (fun t => t.task_id_in_project)).Nodup)
    (h : get_tasks_for_project db pid st asg = .ok l) :
    (∀ t : TaskR, t ∈ l ↔ (t ∈ db.tasks ∧ t.project_id = pid ∧
        (∀ s, st = some s → t.status = s) ∧
        (∀ a, asg = some a → t.assignee_user_id = some a))) ∧
    l.Pairwise (fun a b => a.task_id_in_project < b.task_id_in_project) := by
  unfold get_tasks_for_project at h
  cases hp : get_project_by_id db pid with
  | error e =>
    rw [hp] at h
    exact absurd h (by simp)
  | ok _ =>
    rw [hp] at h
    simp only [] at h
    cases st with
    | none =>
      cases asg with
      | none =>
        rw [Except.ok.injEq] at h
        have hc := tasks_sorted_strict db pid
          (db.tasks.filter (fun t => t.project_id == pid)) l
          (List.Sublist.refl _) h hnd
        refine ⟨?_, hc.2⟩
        intro t
        rw [hc.1 t, List.mem_filter]
        simp
      | some a0 =>
        rw [Except.ok.injEq] at h
        have hc := tasks_sorted_strict db pid
          ((db.tasks.filter (fun t => t.project_id == pid)).filter
            (fun t => t.assignee_user_id == some a0)) l
          (List.filter_sublist _) h hnd
        refine ⟨?_, hc.2⟩
        intro t
        rw [hc.1 t, List.mem_filter, List.mem_filter]
        simp only [beq_iff_eq]
        constructor
        · rintro ⟨⟨ht, hpid⟩, ha⟩
          exact ⟨ht, hpid, by simp, fun a ha' => by
            rw [Option.some.injEq] at ha'
            rw [← ha']
            exact ha⟩
        · rintro ⟨ht, hpid, _, ha⟩
          exact ⟨⟨ht, hpid⟩, ha a0 rfl⟩
    | some s0 =>
      cases asg with
      | none =>
        rw [Except.ok.injEq] at h
        have hc := tasks_sorted_strict db pid
          ((db.tasks.filter (fun t => t.project_id == pid)).filter
            (fun t => t.status == s0)) l
          (List.filter_sublist _) h hnd
        refine ⟨?_, hc.2⟩
        intro t
        rw [hc.1 t, List.mem_filter, List.mem_filter]
        simp only [beq_iff_eq]
        constructor
        · rintro ⟨⟨ht, hpid⟩, hs⟩
          exact ⟨ht, hpid, fun s hs' => by
            rw [Option.some.injEq] at hs'
            rw [← hs']
            exact hs, by simp⟩
        · rintro ⟨ht, hpid, hs, _⟩
          exact ⟨⟨ht, hpid⟩, hs s0 rfl⟩
      | some a0 =>
        rw [Except.ok.injEq] at h
        have hsub : (((db.tasks.filter (fun t => t.project_id == pid)).filter
            (fun t => t.status == s0)).filter
              (fun t => t.assignee_user_id == some a0)).Sublist
            (db.tasks.filter (fun t => t.project_id == pid)) :=
          (List.filter_sublist _).trans (List.filter_sublist _)
        have hc := tasks_sorted_strict db pid
          (((db.tasks.filter (fun t => t.project_id == pid)).filter
            (fun t => t.status == s0)).filter
              (fun t => t.assignee_user_id == some a0)) l
          hsub h hnd
        refine ⟨?_, hc.2⟩
        intro t
        rw [hc.1 t, List.mem_filter, List.mem_filter, List.mem_filter]
        simp only [beq_iff_eq]
        constructor
        · rintro ⟨⟨⟨ht, hpid⟩, hs⟩, ha⟩
          refine ⟨ht, hpid, fun s hs' => by
            rw [Option.some.injEq] at hs'
            rw [← hs']
            exact hs, fun a ha' => by
            rw [Option.some.injEq] at ha'
            rw [← ha']
            exact ha⟩
        · rintro ⟨ht, hpid, hs, ha⟩
          exact ⟨⟨⟨ht, hpid⟩, hs s0 rfl⟩, ha a0 rfl⟩

/-- Witness for the task-listing theorem at a concrete input. -/
theorem get_tasks_for_project_spec_witness :
    ((dbTasksTwo.tasks.filter (fun t => t.project_id == 10)).map
      (fun t => t.task_id_in_project)).Nodup ∧
    get_tasks_for_project dbTasksTwo 10 none none = .ok [taskT1, taskT2] ∧
    ((∀ t : TaskR, t ∈ [taskT1, taskT2] ↔ (t ∈ dbTasksTwo.tasks ∧ t.project_id = 10 ∧
        (∀ s, (none : Option String) = some s → t.status = s) ∧
        (∀ a, (none : Option Int) = some a → t.assignee_user_id = some a))) ∧
     List.Pairwise (fun a b => a.task_id_in_project < b.task_id_in_project)
       [taskT1, taskT2]) :=
  ⟨by decide, by decide,
   get_tasks_for_project_spec dbTasksTwo 10 none none [taskT1, taskT2]
     (by decide) (by decide)⟩

/-- The five pre-checks of `crud.handle_invite_acceptance`, as
conditions on the store at call time: invite code unknown, invite
expired, use limit already reached, accepting user unknown, or the user
already holding a membership row in the invite's project. -/
def acceptance_precheck_rejects (db : DB) (now : Int) (uid : Int)
    (code : String) : Bool :=
  match get_invite_by_code db code with
  | .error _ => true
  | .ok invite =>
    (match invite.expires_at with
     | some t => decide (t < now)
     | none => false) ||
    (match invite.max_uses with
     | some m => decide (invite.current_uses ≥ m)
     | none => false) ||
    (match get_user_by_id db uid with
     | .error _ => true
     | .ok _ => false) ||
    db.members.any (fun m => m.project_id == invite.project_id && m.user_id == uid)

/-- Claim C9: whenever invite acceptance is rejected by one of its five
pre-checks, the call returns an error and the store — in particular the
membership table — is exactly as it was: all five checks run before the
membership insert, so a rejected acceptance creates nothing. -/
theorem rejected_acceptance_leaves_store (db : DB) (now : Int) (uid : Int)
    (code : String)
    (h : acceptance_precheck_rejects db now uid code = true) :
    (handle_invite_acceptance db now uid code).1 = db ∧
    ∃ e, (handle_invite_acceptance db now uid code).2 = .error e := by
  unfold acceptance_precheck_rejects at h
  unfold handle_invite_acceptance
  cases hi : get_invite_by_code db code with
  | error e =>
    exact ⟨rfl, ⟨e, rfl⟩⟩
  | ok invite =>
    rw [hi] at h
    simp only [] at h
    try simp only []
    by_cases hexp : (match invite.expires_at with
        | some t => decide (t < now)
        | none => false) = true
    · rw [if_pos hexp]
      exact ⟨rfl, ⟨_, rfl⟩⟩
    · rw [if_neg hexp]
      by_cases hmax : (match invite.max_uses with
          | some m => decide (invite.current_uses ≥ m)
          | none => false) = true
      · rw [if_pos hmax]
        exact ⟨rfl, ⟨_, rfl⟩⟩
      · rw [if_neg hmax]
        cases hu : get_user_by_id db uid with
        | error e =>
          exact ⟨rfl, ⟨e, rfl⟩⟩
        | ok w =>
          rw [Bool.not_eq_true] at hexp hmax
          rw [hu] at h
          simp only [hexp, hmax, Bool.false_or] at h
          have hex : ∃ mr, db.members.find?
              (fun m => m.project_id == invite.project_id && m.user_id == uid) =
              some mr := by
            rw [← Option.isSome_iff_exists, List.find?_isSome]
            exact List.any_eq_true.mp h
          obtain ⟨mr, hmr⟩ := hex
          unfold get_project_member
          cases hpj : db.projects.find? (fun p => p.project_id == invite.project_id) with
          | none =>
            have hpj2 : get_project_by_id db invite.project_id =
                .error (.projectNotFound invite.project_id) := by
              unfold get_project_by_id
              rw [hpj]
            rw [hpj2]
            exact ⟨rfl, ⟨_, rfl⟩⟩
          | some pr =>
            have hpj2 : get_project_by_id db invite.project_id = .ok pr := by
              unfold get_project_by_id
              rw [hpj]
            rw [hpj2]
            simp only []
            rw [hu]
            simp only []
            rw [hmr]
            exact ⟨rfl, ⟨_, rfl⟩⟩

/-- Witness for the rejected-acceptance theorem: on the empty store any
code is unknown, the call fails and the store is unchanged. -/
theorem rejected_acceptance_leaves_store_witness :
    acceptance_precheck_rejects emptyDB 0 1 "zz" = true ∧
    ((handle_invite_acceptance emptyDB 0 1 "zz").1 = emptyDB ∧
     ∃ e, (handle_invite_acceptance emptyDB 0 1 "zz").2 = .error e) :=
  ⟨by decide, rejected_acceptance_leaves_store emptyDB 0 1 "zz" (by decide)⟩

/-- Folding the optional maximum from a `some` seed is the plain
integer max fold. -/
theorem foldlMaxOpt_some (xs : List Int) (a : Int) :
    xs.foldl (fun acc b =>
      match acc with
      | none => some b
      | some c => some (max c b)) (some a) = some (xs.foldl max a) := by
  induction xs generalizing a with
  | nil => rfl
  | cons x xs ih => simpa using ih (max a x)

/-- The optional maximum of a nonempty list. -/
theorem maxOptInt_cons (x : Int) (xs : List Int) :
    maxOptInt (x :: xs) = some (xs.foldl max x) := by
  unfold maxOptInt
  simp only [List.foldl_cons]
  exact foldlMaxOpt_some xs x

/-- The seed of a max fold is a lower bound of the fold. -/
theorem le_foldl_max (xs : List Int) (a : Int) : a ≤ xs.foldl max a := by
  induction xs generalizing a with
  | nil => simp
  | cons x xs ih => exact le_trans (le_max_left a x) (by simpa using ih (max a x))

/-- Every member of the list is bounded by the max fold. -/
theorem mem_le_foldl_max (xs : List Int) (a : Int) (y : Int) (hy : y ∈ xs) :
    y ≤ xs.foldl max a := by
  induction xs generalizing a with
  | nil => cases hy
  | cons x xs ih =>
    rcases List.mem_cons.mp hy with h | h
    · subst h
      exact le_trans (le_max_right a y) (le_foldl_max xs (max a y))
    · exact ih (max a x) h

/-- The max fold is the seed or one of the members. -/
theorem foldl_max_mem (xs : List Int) (a : Int) :
    xs.foldl max a = a ∨ xs.foldl max a ∈ xs := by
  induction xs generalizing a with
  | nil => left; rfl
  | cons x xs ih =>
    rcases ih (max a x) with h | h
    · rcases max_choice a x with hc | hc
      · left
        rw [List.foldl_cons, h, hc]
      · right
        rw [List.foldl_cons, h, hc]
        exact List.mem_cons_self x xs
    · right
      exact List.mem_cons_of_mem x h

/-- Claim C5 (amended): the next per-project task sequence number is a
strict upper bound of all existing numbers of the project (so creation
order is strictly increasing while the project's maximal task is not
deleted), it is 1 when the project has no tasks and max + 1 of the
remaining rows otherwise, and `create_task` assigns exactly this
number. Because the number is recomputed from the remaining rows,
deleting the task holding the highest number lets the next creation
reuse it (see the counterexample). -/
theorem next_task_number_spec (db : DB) (pid : Int) (n : Int)
    (h : _get_next_task_id_in_project db pid = .ok n) :
    (∀ t ∈ db.tasks, t.project_id = pid → t.task_id_in_project < n) ∧
    ((¬ ∃ t ∈ db.tasks, t.project_id = pid) → n = 1) ∧
    ((∃ t ∈ db.tasks, t.project_id = pid) →
      ∃ t ∈ db.tasks, t.project_id = pid ∧ n = t.task_id_in_project + 1) ∧
    (∀ (creator : Int) (ttl dsc : String) (chat : Int) (asg : Option Int)
        (stt : String) (dd : Option Int) (db1 : DB) (tsk : TaskR),
      create_task db pid creator ttl dsc chat asg stt dd = (db1, .ok tsk) →
      tsk.task_id_in_project = n ∧ tsk ∈ db1.tasks ∧
      ∀ t ∈ db.tasks, t.project_id = pid →
        t.task_id_in_project < tsk.task_id_in_project) := by
  have h0 := h
  unfold _get_next_task_id_in_project at h
  cases hp : get_project_by_id db pid with
  | error e =>
    rw [hp] at h
    exact absurd h (by simp)
  | ok pr =>
    rw [hp] at h
    simp only [] at h
    rw [Except.ok.injEq] at h
    have hmain : (∀ t ∈ db.tasks, t.project_id = pid → t.task_id_in_project < n) ∧
        ((¬ ∃ t ∈ db.tasks, t.project_id = pid) → n = 1) ∧
        ((∃ t ∈ db.tasks, t.project_id = pid) →
          ∃ t ∈ db.tasks, t.project_id = pid ∧ n = t.task_id_in_project + 1) := by
      cases hids : (db.tasks.filter (fun t => t.project_id == pid)).map
          (fun t => t.task_id_in_project) with
      | nil =>
        rw [hids] at h
        have hfe : db.tasks.filter (fun t => t.project_id == pid) = [] :=
          List.map_eq_nil_iff.mp hids
        have hnone : ∀ t ∈ db.tasks, ¬ t.project_id = pid := by
          intro t ht hpt
          have : t ∈ db.tasks.filter (fun t => t.project_id == pid) :=
            List.mem_filter.mpr ⟨ht, by simp [hpt]⟩
          rw [hfe] at this
          cases this
        refine ⟨?_, ?_, ?_⟩
        · intro t ht hpt
          exact absurd hpt (hnone t ht)
        · intro _
          rw [← h]
          rfl
        · rintro ⟨t, ht, hpt⟩
          exact absurd hpt (hnone t ht)
      | cons x xs =>
        rw [hids, maxOptInt_cons] at h
        have hub : ∀ t ∈ db.tasks, t.project_id = pid →
            t.task_id_in_project < n := by
          intro t ht hpt
          have hmem : t.task_id_in_project ∈
              (db.tasks.filter (fun t => t.project_id == pid)).map
                (fun t => t.task_id_in_project) :=
            List.mem_map_of_mem _ (List.mem_filter.mpr ⟨ht, by simp [hpt]⟩)
          rw [hids] at hmem
          have hle : t.task_id_in_project ≤ xs.foldl max x := by
            rcases List.mem_cons.mp hmem with hh | hh
            · rw [hh]
              exact le_foldl_max xs x
            · exact mem_le_foldl_max xs x _ hh
          rw [← h]
          simp only [Option.getD_some]
          omega
        refine ⟨hub, ?_, ?_⟩
        · intro hno
          exfalso
          have : x ∈ (db.tasks.filter (fun t => t.project_id == pid)).map
              (fun t => t.task_id_in_project) := by
            rw [hids]
            exact List.mem_cons_self x xs
          obtain ⟨t, ht, _⟩ := List.mem_map.mp this
          obtain ⟨ht2, hpt⟩ := List.mem_filter.mp ht
          exact hno ⟨t, ht2, by simpa using hpt⟩
        · intro _
          have hmm : xs.foldl max x ∈ (db.tasks.filter
              (fun t => t.project_id == pid)).map (fun t => t.task_id_in_project) := by
            rw [hids]
            rcases foldl_max_mem xs x with hc | hc
            · rw [hc]
              exact List.mem_cons_self x xs
            · exact List.mem_cons_of_mem x hc
          obtain ⟨t, ht, htv⟩ := List.mem_map.mp hmm
          obtain ⟨ht2, hpt⟩ := List.mem_filter.mp ht
          refine ⟨t, ht2, by simpa using hpt, ?_⟩
          rw [← h, htv]
          rfl
    refine ⟨hmain.1, hmain.2.1, hmain.2.2, ?_⟩
    intro creator ttl dsc chat asg stt dd db1 tsk hc
    unfold create_task at hc
    rw [hp] at hc
    simp only [] at hc
    cases hcu : get_user_by_id db creator with
    | error e =>
      rw [hcu] at hc
      exact absurd hc (by simp)
    | ok _ =>
      rw [hcu] at hc
      simp only [] at hc
      cases hcc : get_chat_by_chat_id db chat with
      | error e =>
        rw [hcc] at hc
        exact absurd hc (by simp)
      | ok _ =>
        rw [hcc] at hc
        simp only [] at hc
        cases hca : (match asg with
            | some a => get_user_by_id db a
            | none => Except.ok { user_id := creator, username := none,
                                  first_name := "", is_bot := false }) with
        | error e =>
          rw [hca] at hc
          exact absurd hc (by simp)
        | ok _ =>
          rw [hca] at hc
          simp only [] at hc
          by_cases hst : (!(valid_statuses.contains stt)) = true
          · rw [if_pos hst] at hc
            exact absurd hc (by simp)
          · rw [if_neg hst] at hc
            rw [h0] at hc
            simp only [] at hc
            rw [Prod.mk.injEq] at hc
            obtain ⟨hdb1, htsk⟩ := hc
            rw [Except.ok.injEq] at htsk
            refine ⟨by rw [← htsk], ?_, ?_⟩
            · rw [← hdb1]
              dsimp only
              rw [← htsk]
              exact List.mem_append_right _ (List.mem_singleton_self _)
            · rw [← htsk]
              dsimp only
              exact hmain.1

/-- Witness for the next-task-number theorem on a store with tasks
numbered 1 and 2: the next number is 3 = max + 1 and bounds both. -/
theorem next_task_number_spec_witness :
    _get_next_task_id_in_project dbTasksTwo 10 = .ok 3 ∧
    (∀ t ∈ dbTasksTwo.tasks, t.project_id = 10 → t.task_id_in_project < 3) ∧
    ((¬ ∃ t ∈ dbTasksTwo.tasks, t.project_id = 10) → (3 : Int) = 1) ∧
    ((∃ t ∈ dbTasksTwo.tasks, t.project_id = 10) →
      ∃ t ∈ dbTasksTwo.tasks, t.project_id = 10 ∧
        (3 : Int) = t.task_id_in_project + 1) :=
  ⟨by decide,
   (next_task_number_spec dbTasksTwo 10 3 (by decide)).1,
   (next_task_number_spec dbTasksTwo 10 3 (by decide)).2.1,
   (next_task_number_spec dbTasksTwo 10 3 (by decide)).2.2.1⟩

/-- Inversion of a successful project lookup. -/
theorem get_project_by_id_ok (db : DB) (pid : Int) (p : ProjectR)
    (h : get_project_by_id db pid = .ok p) :
    db.projects.find? (fun q => q.project_id == pid) = some p ∧
    (p.project_id == pid) = true := by
  unfold get_project_by_id at h
  cases hf : db.projects.find? (fun q => q.project_id == pid) with
  | none =>
    rw [hf] at h
    exact absurd h (by simp)
  | some v =>
    rw [hf] at h
    simp only [Except.ok.injEq] at h
    subst h
    exact ⟨rfl, @List.find?_some _ (fun q => q.project_id == pid) v db.projects hf⟩

/-- Inversion of a successful user lookup. -/
theorem get_user_by_id_ok (db : DB) (uid : Int) (w : UserR)
    (h : get_user_by_id db uid = .ok w) :
    db.users.find? (fun u => u.user_id == uid) = some w ∧ w.user_id = uid := by
  unfold get_user_by_id at h
  cases hf : db.users.find? (fun u => u.user_id == uid) with
  | none =>
    rw [hf] at h
    exact absurd h (by simp)
  | some v =>
    rw [hf] at h
    simp only [Except.ok.injEq] at h
    subst h
    have := @List.find?_some _ (fun u => u.user_id == uid) v db.users hf
    exact ⟨rfl, by simpa using this⟩

/-- Reassigning the owner of the rows with a given project id commutes
with the lookup of that id. -/
theorem find?_projects_setOwner (l : List ProjectR) (pid no : Int) :
    (l.map (fun q => if q.project_id == pid then { q with owner_user_id := no }
      else q)).find? (fun p => p.project_id == pid) =
    (l.find? (fun p => p.project_id == pid)).map (fun q =>
      if q.project_id == pid then { q with owner_user_id := no } else q) := by
  apply find?_map_pred_comm
  intro x
  by_cases hx : (x.project_id == pid) = true
  · rw [if_pos hx]
  · rw [if_neg hx]

/-- Behaviour of member removal when the row exists. -/
theorem remove_member_found (db : DB) (pid uid : Int) (pr : ProjectR)
    (w : UserR) (mr : ProjectMemberR)
    (h1 : get_project_by_id db pid = .ok pr)
    (h2 : get_user_by_id db uid = .ok w)
    (hm : db.members.find? (fun m => m.project_id == pid && m.user_id == uid) =
      some mr) :
    remove_member_from_project db pid uid =
      ({ db with
          members := db.members.filter (fun m =>
            !(m.project_id == pid && m.user_id == uid)),
          commits := db.commits + 1 }, .ok ()) := by
  unfold remove_member_from_project get_project_member
  rw [h1]
  simp only []
  rw [h2]
  simp only []
  rw [hm]

/-- Behaviour of member removal when the row is absent. -/
theorem remove_member_missing (db : DB) (pid uid : Int) (pr : ProjectR)
    (w : UserR)
    (h1 : get_project_by_id db pid = .ok pr)
    (h2 : get_user_by_id db uid = .ok w)
    (hm : db.members.find? (fun m => m.project_id == pid && m.user_id == uid) =
      none) :
    remove_member_from_project db pid uid =
      (db, .error (.memberNotFound pid uid)) := by
  unfold remove_member_from_project get_project_member
  rw [h1]
  simp only []
  rw [h2]
  simp only []
  rw [hm]

/-- Behaviour of the member insert when all its checks pass. -/
theorem add_member_ok (db : DB) (uid pid : Int) (role : String)
    (pr : ProjectR) (w : UserR)
    (h1 : get_project_by_id db pid = .ok pr)
    (h2 : get_user_by_id db uid = .ok w)
    (h3 : (pr.owner_user_id == uid) = false)
    (h4 : db.members.find? (fun m => m.project_id == pid && m.user_id == uid) =
      none) :
    add_member_to_project db uid pid role =
      ({ db with
          members := db.members ++
            [{ project_id := pid, user_id := uid, role := role }],
          commits := db.commits + 1 },
        .ok { project_id := pid, user_id := uid, role := role }) := by
  have hwid : w.user_id = uid := (get_user_by_id_ok db uid w h2).2
  unfold add_member_to_project
  rw [h1]
  simp only []
  rw [h2]
  simp only []
  rw [h3]
  simp only [Bool.false_eq_true, if_false]
  simp only [hwid]
  rw [h4]

/-- Claim C2 (amended): for an existing project and an existing new
owner distinct from the current one (with the invariant-given absence
of a membership row for the current owner), the transfer succeeds and
its overall effect is (a) the owner reassigned, (b) any membership row
of the new owner removed, (c) a role-"member" row added for the old
owner — but the three effects are committed by two or three separate
commits (owner change first), not one transaction, so a failure in a
later step can leave the owner change in place (see the
counterexample). -/
theorem transfer_ownership_effects (db : DB) (pid new_owner : Int)
    (p : ProjectR)
    (hp : db.projects.find? (fun q => q.project_id == pid) = some p)
    (hu : ∃ u ∈ db.users, u.user_id = new_owner)
    (hne : p.owner_user_id ≠ new_owner)
    (hold_nomem : ∀ m ∈ db.members,
      ¬(m.project_id = pid ∧ m.user_id = p.owner_user_id))
    (hold_user : ∃ u ∈ db.users, u.user_id = p.owner_user_id) :
    transfer_project_ownership db pid new_owner =
      ({ db with
          projects := db.projects.map (fun q =>
            if q.project_id == pid then { q with owner_user_id := new_owner }
            else q),
          members := db.members.filter (fun m =>
            !(m.project_id == pid && m.user_id == new_owner)) ++
            [{ project_id := pid, user_id := p.owner_user_id,
               role := "member" }],
          commits := db.commits +
            (if db.members.any (fun m =>
                m.project_id == pid && m.user_id == new_owner)
             then 3 else 2) },
        .ok { p with owner_user_id := new_owner }) := by
  have hppid : (p.project_id == pid) = true :=
    @List.find?_some _ (fun q => q.project_id == pid) p db.projects hp
  have hpj : get_project_by_id db pid = .ok p := by
    unfold get_project_by_id
    rw [hp]
  obtain ⟨w, hw⟩ : ∃ w, db.users.find? (fun u => u.user_id == new_owner) = some w := by
    rw [← Option.isSome_iff_exists, List.find?_isSome]
    obtain ⟨u, hu1, hu2⟩ := hu
    exact ⟨u, hu1, by simp [hu2]⟩
  have hgu : get_user_by_id db new_owner = .ok w := by
    unfold get_user_by_id
    rw [hw]
  obtain ⟨w2, hw2⟩ : ∃ w2, db.users.find?
      (fun u => u.user_id == p.owner_user_id) = some w2 := by
    rw [← Option.isSome_iff_exists, List.find?_isSome]
    obtain ⟨u, hu1, hu2⟩ := hold_user
    exact ⟨u, hu1, by simp [hu2]⟩
  have hgu2 : get_user_by_id db p.owner_user_id = .ok w2 := by
    unfold get_user_by_id
    rw [hw2]
  have hfind1 : (db.projects.map (fun q =>
      if q.project_id == pid then { q with owner_user_id := new_owner }
      else q)).find? (fun q => q.project_id == pid) =
      some { p with owner_user_id := new_owner } := by
    rw [find?_projects_setOwner, hp]
    simp only [Option.map_some']
    rw [if_pos hppid]
  have hpj1 : get_project_by_id
      { db with
        projects := db.projects.map (fun q =>
          if q.project_id == pid then { q with owner_user_id := new_owner }
          else q),
        commits := db.commits + 1 } pid =
      .ok { p with owner_user_id := new_owner } := by
    unfold get_project_by_id
    dsimp only
    rw [hfind1]
  have hgu1 : get_user_by_id
      { db with
        projects := db.projects.map (fun q =>
          if q.project_id == pid then { q with owner_user_id := new_owner }
          else q),
        commits := db.commits + 1 } new_owner = .ok w := hgu
  have hgu2x : get_user_by_id
      { db with
        projects := db.projects.map (fun q =>
          if q.project_id == pid then { q with owner_user_id := new_owner }
          else q),
        commits := db.commits + 1 } p.owner_user_id = .ok w2 := hgu2
  have hown : (({ p with owner_user_id := new_owner } : ProjectR).owner_user_id ==
      p.owner_user_id) = false := by
    dsimp only
    rw [beq_eq_false_iff_ne]
    exact Ne.symm hne
  have hnebeq : (p.owner_user_id == new_owner) = false := by
    rw [beq_eq_false_iff_ne]
    exact hne
  unfold transfer_project_ownership
  rw [hpj]
  simp only []
  rw [hgu]
  simp only []
  rw [hnebeq]
  simp only [Bool.false_eq_true, if_false]
  cases hm : db.members.find? (fun m =>
      m.project_id == pid && m.user_id == new_owner) with
  | some mr =>
    have hrm := remove_member_found
      { db with
        projects := db.projects.map (fun q =>
          if q.project_id == pid then { q with owner_user_id := new_owner }
          else q),
        commits := db.commits + 1 } pid new_owner
      { p with owner_user_id := new_owner } w mr hpj1 hgu1 hm
    rw [hrm]
    simp only []
    have h4 : ((db.members.filter (fun m =>
        !(m.project_id == pid && m.user_id == new_owner))).find?
        (fun m => m.project_id == pid && m.user_id == p.owner_user_id)) = none := by
      rw [List.find?_eq_none]
      intro x hx
      have hx2 := (List.mem_filter.mp hx).1
      intro hpx
      simp only [Bool.and_eq_true, beq_iff_eq] at hpx
      exact hold_nomem x hx2 hpx
    have hadd := add_member_ok
      { db with
        projects := db.projects.map (fun q =>
          if q.project_id == pid then { q with owner_user_id := new_owner }
          else q),
        members := db.members.filter (fun m =>
          !(m.project_id == pid && m.user_id == new_owner)),
        commits := db.commits + 1 + 1 } p.owner_user_id pid "member"
      { p with owner_user_id := new_owner } w2 hpj1 hgu2x hown h4
    rw [hadd]
    simp only []
    have hany : db.members.any (fun m =>
        m.project_id == pid && m.user_id == new_owner) = true := by
      rw [List.any_eq_true]
      exact ⟨mr, List.mem_of_find?_eq_some hm,
        @List.find?_some _ _ mr db.members hm⟩
    rw [hany]
    rfl
  | none =>
    have hrm := remove_member_missing
      { db with
        projects := db.projects.map (fun q =>
          if q.project_id == pid then { q with owner_user_id := new_owner }
          else q),
        commits := db.commits + 1 } pid new_owner
      { p with owner_user_id := new_owner } w hpj1 hgu1 hm
    rw [hrm]
    simp only []
    have h4 : db.members.find?
        (fun m => m.project_id == pid && m.user_id == p.owner_user_id) = none := by
      rw [List.find?_eq_none]
      intro x hx
      intro hpx
      simp only [Bool.and_eq_true, beq_iff_eq] at hpx
      exact hold_nomem x hx hpx
    have hadd := add_member_ok
      { db with
        projects := db.projects.map (fun q =>
          if q.project_id == pid then { q with owner_user_id := new_owner }
          else q),
        commits := db.commits + 1 } p.owner_user_id pid "member"
      { p with owner_user_id := new_owner } w2 hpj1 hgu2x hown h4
    rw [hadd]
    simp only []
    have hanyf : db.members.any (fun m =>
        m.project_id == pid && m.user_id == new_owner) = false := by
      rw [List.any_eq_false]
      intro x hx
      exact List.find?_eq_none.mp hm x hx
    have hfeq : db.members.filter (fun m =>
        !(m.project_id == pid && m.user_id == new_owner)) = db.members := by
      rw [List.filter_eq_self]
      intro m hmem
      rw [Bool.not_eq_true']
      have h5 := List.find?_eq_none.mp hm m hmem
      rw [Bool.not_eq_true] at h5
      exact h5
    rw [hanyf, hfeq]
    rfl

/-- A store with two users where user 2 (the future owner) is currently
an ordinary member of project 1. -/
def dbTransferW : DB :=
  { users := [{ user_id := 1, username := none, first_name := "a", is_bot := false },
              { user_id := 2, username := none, first_name := "b", is_bot := false }],
    projects := [{ project_id := 1, name := "A", owner_user_id := 1, description := none }],
    members := [{ project_id := 1, user_id := 2, role := "member" }],
    tasks := [], chats := [], invites := [], project_chats := [],
    next_project_id := 2, next_task_id := 1, next_invite_id := 1, commits := 0 }

/-- Witness for the transfer-effects theorem at a concrete input. -/
theorem transfer_ownership_effects_witness :
    dbTransferW.projects.find? (fun q => q.project_id == 1) =
      some { project_id := 1, name := "A", owner_user_id := 1, description := none } ∧
    (∃ u ∈ dbTransferW.users, u.user_id = 2) ∧
    (1 : Int) ≠ 2 ∧
    (∀ m ∈ dbTransferW.members, ¬(m.project_id = 1 ∧ m.user_id = 1)) ∧
    (∃ u ∈ dbTransferW.users, u.user_id = 1) ∧
    transfer_project_ownership dbTransferW 1 2 =
      ({ dbTransferW with
          projects := dbTransferW.projects.map (fun q =>
            if q.project_id == 1 then { q with owner_user_id := 2 } else q),
          members := dbTransferW.members.filter (fun m =>
            !(m.project_id == 1 && m.user_id == 2)) ++
            [{ project_id := 1, user_id := 1, role := "member" }],
          commits := dbTransferW.commits +
            (if dbTransferW.members.any (fun m =>
                m.project_id == 1 && m.user_id == 2) then 3 else 2) },
        .ok { project_id := 1, name := "A", owner_user_id := 2,
              description := none }) :=
  ⟨by decide, by decide, by decide, by decide, by decide,
   transfer_ownership_effects dbTransferW 1 2
     { project_id := 1, name := "A", owner_user_id := 1, description := none }
     (by decide) (by decide) (by decide) (by decide) (by decide)⟩

/-- The memberships loop only appends to the accumulated output. -/
theorem gupwrML_prefix (db : DB) (ms : List ProjectMemberR) :
    ∀ acc, ∃ tail, (gupwrMembershipsLoop db ms acc).1 = acc.1 ++ tail := by
  induction ms with
  | nil =>
    intro acc
    exact ⟨[], by simp [gupwrMembershipsLoop]⟩
  | cons m rest ih =>
    intro acc
    simp only [gupwrMembershipsLoop]
    cases hf : db.projects.find? (fun p => p.project_id == m.project_id) with
    | none => exact ih acc
    | some project =>
      simp only []
      by_cases hc : acc.2.contains project.project_id = true
      · rw [if_pos hc]
        exact ih acc
      · rw [if_neg hc]
        obtain ⟨tail, htail⟩ := ih (acc.1 ++ [(project, m.role)], acc.2 ++ [project.project_id])
        exact ⟨(project, m.role) :: tail, by simpa using htail⟩

/-- The owned-projects loop only appends to the accumulated output. -/
theorem gupwrOL_prefix (ps : List ProjectR) :
    ∀ acc, ∃ tail, (gupwrOwnedLoop ps acc).1 = acc.1 ++ tail := by
  induction ps with
  | nil =>
    intro acc
    exact ⟨[], by simp [gupwrOwnedLoop]⟩
  | cons p rest ih =>
    intro acc
    simp only [gupwrOwnedLoop]
    by_cases hc : acc.2.contains p.project_id = true
    · rw [if_pos hc]
      exact ih acc
    · rw [if_neg hc]
      obtain ⟨tail, htail⟩ := ih (acc.1 ++ [(p, "owner")], acc.2 ++ [p.project_id])
      exact ⟨(p, "owner") :: tail, by simpa using htail⟩

/-- The memberships loop never drops a processed id. -/
theorem gupwrML_proc_mono (db : DB) (ms : List ProjectMemberR) :
    ∀ acc, ∀ i ∈ acc.2, i ∈ (gupwrMembershipsLoop db ms acc).2 := by
  induction ms with
  | nil =>
    intro acc i hi
    simpa [gupwrMembershipsLoop] using hi
  | cons m rest ih =>
    intro acc i hi
    simp only [gupwrMembershipsLoop]
    cases hf : db.projects.find? (fun p => p.project_id == m.project_id) with
    | none => exact ih acc i hi
    | some project =>
      simp only []
      by_cases hc : acc.2.contains project.project_id = true
      · rw [if_pos hc]
        exact ih acc i hi
      · rw [if_neg hc]
        exact ih _ i (List.mem_append_left _ hi)

/-- The owned-projects loop never drops a processed id. -/
theorem gupwrOL_proc_mono (ps : List ProjectR) :
    ∀ acc, ∀ i ∈ acc.2, i ∈ (gupwrOwnedLoop ps acc).2 := by
  induction ps with
  | nil =>
    intro acc i hi
    simpa [gupwrOwnedLoop] using hi
  | cons p rest ih =>
    intro acc i hi
    simp only [gupwrOwnedLoop]
    by_cases hc : acc.2.contains p.project_id = true
    · rw [if_pos hc]
      exact ih acc i hi
    · rw [if_neg hc]
      exact ih _ i (List.mem_append_left _ hi)

/-- Through the memberships loop, the processed-id set stays in step
with the output (it is the list of output project ids) and stays
duplicate-free. -/
theorem gupwrML_inv (db : DB) (ms : List ProjectMemberR) :
    ∀ acc, acc.2 = acc.1.map (fun x => x.1.project_id) → acc.2.Nodup →
    (gupwrMembershipsLoop db ms acc).2 =
      (gupwrMembershipsLoop db ms acc).1.map (fun x => x.1.project_id) ∧
    (gupwrMembershipsLoop db ms acc).2.Nodup := by
  induction ms with
  | nil =>
    intro acc h1 h2
    simpa [gupwrMembershipsLoop] using ⟨h1, h2⟩
  | cons m rest ih =>
    intro acc h1 h2
    simp only [gupwrMembershipsLoop]
    cases hf : db.projects.find? (fun p => p.project_id == m.project_id) with
    | none => exact ih acc h1 h2
    | some project =>
      simp only []
      by_cases hc : acc.2.contains project.project_id = true
      · rw [if_pos hc]
        exact ih acc h1 h2
      · rw [if_neg hc]
        refine ih _ ?_ ?_
        · simp [h1]
        · have hnotin : project.project_id ∉ acc.2 := fun hmem =>
            hc (List.elem_eq_true_of_mem hmem)
          refine List.Nodup.append h2 (List.nodup_singleton _) ?_
          intro b hb hb2
          rw [List.mem_singleton] at hb2
          subst hb2
          exact hnotin hb

/-- Through the owned-projects loop, the processed-id set stays in step
with the output and stays duplicate-free. -/
theorem gupwrOL_inv (ps : List ProjectR) :
    ∀ acc, acc.2 = acc.1.map (fun x => x.1.project_id) → acc.2.Nodup →
    (gupwrOwnedLoop ps acc).2 =
      (gupwrOwnedLoop ps acc).1.map (fun x => x.1.project_id) ∧
    (gupwrOwnedLoop ps acc).2.Nodup := by
  induction ps with
  | nil =>
    intro acc h1 h2
    simpa [gupwrOwnedLoop] using ⟨h1, h2⟩
  | cons p rest ih =>
    intro acc h1 h2
    simp only [gupwrOwnedLoop]
    by_cases hc : acc.2.contains p.project_id = true
    · rw [if_pos hc]
      exact ih acc h1 h2
    · rw [if_neg hc]
      refine ih _ ?_ ?_
      · simp [h1]
      · have hnotin : p.project_id ∉ acc.2 := fun hmem =>
          hc (List.elem_eq_true_of_mem hmem)
        refine List.Nodup.append h2 (List.nodup_singleton _) ?_
        intro b hb hb2
        rw [List.mem_singleton] at hb2
        subst hb2
        exact hnotin hb

/-- Any membership whose project id resolves in the projects table gets
its id processed by the memberships loop. -/
theorem gupwrML_processes (db : DB) (m : ProjectMemberR)
    (hexists : ∃ p ∈ db.projects, (p.project_id == m.project_id) = true) :
    ∀ (ms : List ProjectMemberR) acc, m ∈ ms →
    m.project_id ∈ (gupwrMembershipsLoop db ms acc).2 := by
  intro ms
  induction ms with
  | nil =>
    intro acc hm
    cases hm
  | cons m0 rest ih =>
    intro acc hm
    simp only [gupwrMembershipsLoop]
    rcases List.mem_cons.mp hm with he | ht
    · subst he
      obtain ⟨pr, hpr⟩ : ∃ pr, db.projects.find?
          (fun p => p.project_id == m.project_id) = some pr := by
        rw [← Option.isSome_iff_exists, List.find?_isSome]
        exact hexists
      rw [hpr]
      simp only []
      have hprid : pr.project_id = m.project_id := by
        have := @List.find?_some _ (fun p => p.project_id == m.project_id) pr
          db.projects hpr
        simpa using this
      by_cases hc : acc.2.contains pr.project_id = true
      · rw [if_pos hc]
        have hmem : pr.project_id ∈ acc.2 := List.mem_of_elem_eq_true hc
        rw [hprid] at hmem
        exact gupwrML_proc_mono db rest acc _ hmem
      · rw [if_neg hc]
        apply gupwrML_proc_mono
        rw [← hprid]
        exact List.mem_append_right _ (List.mem_singleton_self _)
    · cases hf : db.projects.find? (fun p => p.project_id == m0.project_id) with
      | none => exact ih acc ht
      | some project =>
        simp only []
        by_cases hc : acc.2.contains project.project_id = true
        · rw [if_pos hc]
          exact ih acc ht
        · rw [if_neg hc]
          exact ih _ ht

/-- Everything the memberships loop adds comes from a membership row
whose project resolved in the projects table and carries that row's
stored role. -/
theorem gupwrML_sound (db : DB) (ms : List ProjectMemberR) :
    ∀ acc, ∀ x ∈ (gupwrMembershipsLoop db ms acc).1,
    x ∈ acc.1 ∨ (x.1 ∈ db.projects ∧
      ∃ m ∈ ms, m.project_id = x.1.project_id ∧ x.2 = m.role) := by
  induction ms with
  | nil =>
    intro acc x hx
    left
    simpa [gupwrMembershipsLoop] using hx
  | cons m0 rest ih =>
    intro acc x hx
    simp only [gupwrMembershipsLoop] at hx
    cases hf : db.projects.find? (fun p => p.project_id == m0.project_id) with
    | none =>
      rw [hf] at hx
      rcases ih acc x hx with h | ⟨hp, mm, hmm, hrest⟩
      · exact Or.inl h
      · exact Or.inr ⟨hp, mm, List.mem_cons_of_mem _ hmm, hrest⟩
    | some project =>
      rw [hf] at hx
      simp only [] at hx
      have hppr : project ∈ db.projects ∧ project.project_id = m0.project_id := by
        constructor
        · exact List.mem_of_find?_eq_some hf
        · have := @List.find?_some _ (fun p => p.project_id == m0.project_id)
            project db.projects hf
          simpa using this
      by_cases hc : acc.2.contains project.project_id = true
      · rw [if_pos hc] at hx
        rcases ih acc x hx with h | ⟨hp, mm, hmm, hrest⟩
        · exact Or.inl h
        · exact Or.inr ⟨hp, mm, List.mem_cons_of_mem _ hmm, hrest⟩
      · rw [if_neg hc] at hx
        rcases ih _ x hx with h | ⟨hp, mm, hmm, hrest⟩
        · rcases List.mem_append.mp h with h1 | h1
          · exact Or.inl h1
          · rw [List.mem_singleton] at h1
            subst h1
            exact Or.inr ⟨hppr.1, m0, List.mem_cons_self _ _,
              by rw [hppr.2], rfl⟩
        · exact Or.inr ⟨hp, mm, List.mem_cons_of_mem _ hmm, hrest⟩

/-- Everything the owned-projects loop adds is one of the owned
projects, carries the synthetic role "owner", and had an id that was
not processed when the loop started. -/
theorem gupwrOL_sound (ps : List ProjectR) :
    ∀ acc, ∀ x ∈ (gupwrOwnedLoop ps acc).1,
    x ∈ acc.1 ∨ (x.1 ∈ ps ∧ x.2 = "owner" ∧ x.1.project_id ∉ acc.2) := by
  induction ps with
  | nil =>
    intro acc x hx
    left
    simpa [gupwrOwnedLoop] using hx
  | cons p rest ih =>
    intro acc x hx
    simp only [gupwrOwnedLoop] at hx
    by_cases hc : acc.2.contains p.project_id = true
    · rw [if_pos hc] at hx
      rcases ih acc x hx with h | ⟨hp, hr, hn⟩
      · exact Or.inl h
      · exact Or.inr ⟨List.mem_cons_of_mem _ hp, hr, hn⟩
    · rw [if_neg hc] at hx
      rcases ih _ x hx with h | ⟨hp, hr, hn⟩
      · rcases List.mem_append.mp h with h1 | h1
        · exact Or.inl h1
        · rw [List.mem_singleton] at h1
          subst h1
          exact Or.inr ⟨List.mem_cons_self _ _, rfl,
            fun hmem => hc (List.elem_eq_true_of_mem hmem)⟩
      · refine Or.inr ⟨List.mem_cons_of_mem _ hp, hr, fun hmem => hn ?_⟩
        exact List.mem_append_left _ hmem

/-- Every owned project ends up represented in the output of the
owned-projects loop (by id). -/
theorem gupwrOL_complete (ps : List ProjectR) :
    ∀ acc, acc.2 = acc.1.map (fun x => x.1.project_id) →
    ∀ p ∈ ps, ∃ x ∈ (gupwrOwnedLoop ps acc).1, x.1.project_id = p.project_id := by
  induction ps with
  | nil =>
    intro acc _ p hp
    cases hp
  | cons p0 rest ih =>
    intro acc hids p hp
    simp only [gupwrOwnedLoop]
    rcases List.mem_cons.mp hp with he | ht
    · subst he
      by_cases hc : acc.2.contains p.project_id = true
      · rw [if_pos hc]
        have hmem : p.project_id ∈ acc.2 := List.mem_of_elem_eq_true hc
        rw [hids] at hmem
        obtain ⟨x, hx, hxid⟩ := List.mem_map.mp hmem
        obtain ⟨tail, htail⟩ := gupwrOL_prefix rest acc
        exact ⟨x, by rw [htail]; exact List.mem_append_left _ hx, hxid⟩
      · rw [if_neg hc]
        obtain ⟨tail, htail⟩ := gupwrOL_prefix rest
          (acc.1 ++ [(p, "owner")], acc.2 ++ [p.project_id])
        refine ⟨(p, "owner"), ?_, rfl⟩
        rw [htail]
        exact List.mem_append_left _
          (List.mem_append_right _ (List.mem_singleton_self _))
    · by_cases hc : acc.2.contains p0.project_id = true
      · rw [if_pos hc]
        exact ih acc hids p ht
      · rw [if_neg hc]
        refine ih _ ?_ p ht
        simp [hids]

/-- Claim C3 (amended): `get_user_projects_with_roles` returns each
project at most once (project ids pairwise distinct); every returned
pair either comes from a membership row of the user and carries that
row's stored role, or is a project the user owns in which the user
holds no membership row, carrying the synthetic role "owner"; every
owned project and every membership-resolved project is represented.
When the user owns a project and also holds a stale membership row in
it, the stored membership role is returned, not "owner" (see the
counterexample). -/
theorem gupwr_characterization (db : DB) (uid : Int) :
    ((get_user_projects_with_roles db uid).map (fun x => x.1.project_id)).Nodup ∧
    (∀ x ∈ get_user_projects_with_roles db uid,
      (x.1 ∈ db.projects ∧ ∃ m ∈ db.members, m.user_id = uid ∧
        m.project_id = x.1.project_id ∧ x.2 = m.role) ∨
      (x.1 ∈ db.projects ∧ x.1.owner_user_id = uid ∧ x.2 = "owner" ∧
        ∀ m ∈ db.members, m.user_id = uid → m.project_id ≠ x.1.project_id)) ∧
    (∀ p ∈ db.projects, p.owner_user_id = uid →
      ∃ x ∈ get_user_projects_with_roles db uid,
        x.1.project_id = p.project_id) ∧
    (∀ m ∈ db.members, m.user_id = uid →
      (∃ q ∈ db.projects, q.project_id = m.project_id) →
      ∃ x ∈ get_user_projects_with_roles db uid,
        x.1.project_id = m.project_id) := by
  have hres : get_user_projects_with_roles db uid =
      (gupwrOwnedLoop (db.projects.filter (fun p => p.owner_user_id == uid))
        (gupwrMembershipsLoop db
          (db.members.filter (fun m => m.user_id == uid)) ([], []))).1 := rfl
  rw [hres]
  have hinv1 := gupwrML_inv db (db.members.filter (fun m => m.user_id == uid))
    ([], []) rfl List.nodup_nil
  have hinv2 := gupwrOL_inv (db.projects.filter (fun p => p.owner_user_id == uid))
    (gupwrMembershipsLoop db (db.members.filter (fun m => m.user_id == uid))
      ([], [])) hinv1.1 hinv1.2
  refine ⟨?_, ?_, ?_, ?_⟩
  · rw [← hinv2.1]
    exact hinv2.2
  · intro x hx
    rcases gupwrOL_sound _ _ x hx with h1 | ⟨hp, hr, hn⟩
    · rcases gupwrML_sound db _ _ x h1 with h2 | ⟨hp2, m, hm, hmid, hmr⟩
      · cases h2
      · obtain ⟨hm2, hmu⟩ := List.mem_filter.mp hm
        exact Or.inl ⟨hp2, m, hm2, by simpa using hmu, hmid, hmr⟩
    · obtain ⟨hp2, hpo⟩ := List.mem_filter.mp hp
      refine Or.inr ⟨hp2, by simpa using hpo, hr, ?_⟩
      intro m hm hmu heq
      apply hn
      rw [← heq]
      apply gupwrML_processes db m ⟨x.1, hp2, by simp [heq]⟩
      exact List.mem_filter.mpr ⟨hm, by simp [hmu]⟩
  · intro p hp hpo
    exact gupwrOL_complete _ _ hinv1.1 p
      (List.mem_filter.mpr ⟨hp, by simp [hpo]⟩)
  · intro m hm hmu hq
    have hproc : m.project_id ∈ (gupwrMembershipsLoop db
        (db.members.filter (fun m => m.user_id == uid)) ([], [])).2 := by
      apply gupwrML_processes db m
      · obtain ⟨q, hq1, hq2⟩ := hq
        exact ⟨q, hq1, by simp [hq2]⟩
      · exact List.mem_filter.mpr ⟨hm, by simp [hmu]⟩
    rw [hinv1.1] at hproc
    obtain ⟨x, hx, hxid⟩ := List.mem_map.mp hproc
    obtain ⟨tail, htail⟩ := gupwrOL_prefix
      (db.projects.filter (fun p => p.owner_user_id == uid))
      (gupwrMembershipsLoop db (db.members.filter (fun m => m.user_id == uid))
        ([], []))
    exact ⟨x, by rw [htail]; exact List.mem_append_left _ hx, hxid⟩

/-- The ownership/membership exclusion invariant of the data model: no
project's owner simultaneously holds a membership row in that
project. -/
def StoreInv (db : DB) : Prop :=
  ∀ m ∈ db.members, ∀ p ∈ db.projects,
    p.project_id = m.project_id → p.owner_user_id ≠ m.user_id

/-- Schema-level well-formedness maintained by the store: project
primary keys are unique and below the autoincrement counter, membership
rows reference existing projects, and project owners reference existing
users. -/
def StoreWF (db : DB) : Prop :=
  (db.projects.map (fun p => p.project_id)).Nodup ∧
  (∀ p ∈ db.projects, p.project_id < db.next_project_id) ∧
  (∀ m ∈ db.members, ∃ p ∈ db.projects, p.project_id = m.project_id) ∧
  (∀ p ∈ db.projects, ∃ u ∈ db.users, u.user_id = p.owner_user_id)

/-- The store fields that `WF` and `Inv` depend on. -/
def core (db : DB) : List ProjectR × List ProjectMemberR × List UserR × Int :=
  (db.projects, db.members, db.users, db.next_project_id)

/-- Operations that leave the core fields alone preserve both
predicates. -/
theorem WF_Inv_of_core_eq (db db' : DB) (h : core db' = core db) :
    (StoreWF db → StoreWF db') ∧ (StoreInv db → StoreInv db') := by
  unfold core at h
  rw [Prod.mk.injEq, Prod.mk.injEq, Prod.mk.injEq] at h
  obtain ⟨h1, h2, h3, h4⟩ := h
  constructor
  · intro hwf
    unfold StoreWF at hwf ⊢
    rw [h1, h2, h3, h4]
    exact hwf
  · intro hinv
    unfold StoreInv at hinv ⊢
    rw [h1, h2]
    exact hinv

/-- `create_task` does not touch the core fields. -/
theorem create_task_core (db : DB) (pid cid : Int) (ttl dsc : String)
    (chat : Int) (asg : Option Int) (stt : String) (dd : Option Int) :
    core (create_task db pid cid ttl dsc chat asg stt dd).1 = core db := by
  unfold create_task core
  (repeat' split) <;> rfl

/-- `update_task` does not touch the core fields. -/
theorem update_task_core (db : DB) (now tid : Int) (ttl dsc st : Option String)
    (asg dd : Option (Option Int)) :
    core (update_task db now tid ttl dsc st asg dd).1 = core db := by
  unfold update_task core
  (repeat' split) <;> rfl

/-- `delete_task` does not touch the core fields. -/
theorem delete_task_core (db : DB) (tid : Int) :
    core (delete_task db tid).1 = core db := by
  unfold delete_task core
  (repeat' split) <;> rfl

/-- `create_invite` does not touch the core fields. -/
theorem create_invite_core (db : DB) (pid gid : Int) (code : String)
    (mu : Option Int) (exp : Option Int) :
    core (create_invite db pid gid code mu exp).1 = core db := by
  unfold create_invite core
  (repeat' split) <;> rfl

/-- `increment_invite_uses` does not touch the core fields. -/
theorem increment_invite_uses_core (db : DB) (code : String) :
    core (increment_invite_uses db code).1 = core db := by
  unfold increment_invite_uses core
  split
  · rfl
  · simp only []
    (repeat' split) <;> rfl

/-- `delete_invite_by_code` does not touch the core fields. -/
theorem delete_invite_by_code_core (db : DB) (code : String) :
    core (delete_invite_by_code db code).1 = core db := by
  unfold delete_invite_by_code core
  (repeat' split) <;> rfl

/-- `delete_invite_by_id` does not touch the core fields. -/
theorem delete_invite_by_id_core (db : DB) (iid : Int) :
    core (delete_invite_by_id db iid).1 = core db := by
  unfold delete_invite_by_id core
  (repeat' split) <;> rfl

/-- `create_chat` does not touch the core fields. -/
theorem create_chat_core (db : DB) (cid : Int) (ctype : String)
    (ctitle : Option String) :
    core (create_chat db cid ctype ctitle).1 = core db := by
  unfold create_chat core
  (repeat' split) <;> rfl

/-- `add_chat_to_project` does not touch the core fields. -/
theorem add_chat_to_project_core (db : DB) (pid cid : Int) :
    core (add_chat_to_project db pid cid).1 = core db := by
  unfold add_chat_to_project core
  (repeat' split) <;> rfl

/-- `remove_chat_from_project` does not touch the core fields. -/
theorem remove_chat_from_project_core (db : DB) (pid cid : Int) :
    core (remove_chat_from_project db pid cid).1 = core db := by
  unfold remove_chat_from_project core
  (repeat' split) <;> rfl

/-- Under unique project ids, two project rows with the same id are the
same row. -/
theorem proj_unique (db : DB)
    (hnd : (db.projects.map (fun p => p.project_id)).Nodup)
    (p q : ProjectR) (hp : p ∈ db.projects) (hq : q ∈ db.projects)
    (heq : p.project_id = q.project_id) : p = q :=
  List.inj_on_of_nodup_map hnd hp hq heq

/-- The project field-update phase keeps the id and the owner. -/
theorem projApply_keeps (p0 : ProjectR) (nm : Option String)
    (dsc : Option (Option String)) :
    (projApply p0 nm dsc).1.project_id = p0.project_id ∧
    (projApply p0 nm dsc).1.owner_user_id = p0.owner_user_id := by
  unfold projApply
  constructor <;>
    (cases nm <;> cases dsc <;> simp only [] <;> (repeat' split) <;> rfl)

/-- `create_user` preserves well-formedness and the exclusion
invariant. -/
theorem pres_create_user (db : DB) (uid : Int) (un : Option String)
    (fn : String) (ib : Bool) (hwf : StoreWF db) (hinv : StoreInv db) :
    StoreWF (create_user db uid un fn ib).1 ∧
    StoreInv (create_user db uid un fn ib).1 := by
  unfold create_user
  simp only []
  split
  · exact ⟨hwf, hinv⟩
  · obtain ⟨w1, w2, w3, w4⟩ := hwf
    refine ⟨⟨w1, w2, w3, ?_⟩, hinv⟩
    intro p hp
    obtain ⟨u, hu1, hu2⟩ := w4 p hp
    exact ⟨u, List.mem_append_left _ hu1, hu2⟩

/-- `get_or_create_and_update_user` preserves well-formedness and the
exclusion invariant. -/
theorem pres_upsert_user (db : DB) (uid : Int) (un : Option String)
    (fn : String) (ib : Bool) (hwf : StoreWF db) (hinv : StoreInv db) :
    StoreWF (get_or_create_and_update_user db uid un fn ib).1 ∧
    StoreInv (get_or_create_and_update_user db uid un fn ib).1 := by
  unfold get_or_create_and_update_user
  cases hg : get_user_by_id db uid with
  | error e =>
    cases e <;> simp only [] <;>
      first
        | exact pres_create_user db uid un fn ib hwf hinv
        | exact ⟨hwf, hinv⟩
  | ok user0 =>
    simp only []
    have hid : user0.user_id = uid := (get_user_by_id_ok db uid user0 hg).2
    split
    · obtain ⟨w1, w2, w3, w4⟩ := hwf
      refine ⟨⟨w1, w2, w3, ?_⟩, hinv⟩
      intro p hp
      obtain ⟨u, hu1, hu2⟩ := w4 p hp
      refine ⟨if u.user_id == uid then (upsertApply user0 un fn ib).1 else u,
        List.mem_map_of_mem _ hu1, ?_⟩
      by_cases hcu : (u.user_id == uid) = true
      · rw [if_pos hcu]
        rw [upsertApply_fields]
        dsimp only
        rw [hid, ← hu2]
        exact (beq_iff_eq.mp hcu).symm
      · rw [if_neg hcu]
        exact hu2
    · exact ⟨⟨hwf.1, hwf.2.1, hwf.2.2.1, hwf.2.2.2⟩, hinv⟩

/-- `create_project` preserves well-formedness and the exclusion
invariant. -/
theorem pres_create_project (db : DB) (oid : Int) (nm : String)
    (dsc : Option String) (hwf : StoreWF db) (hinv : StoreInv db) :
    StoreWF (create_project db oid nm dsc).1 ∧
    StoreInv (create_project db oid nm dsc).1 := by
  unfold create_project
  cases hg : get_user_by_id db oid with
  | error e => exact ⟨hwf, hinv⟩
  | ok w =>
    simp only []
    split
    · exact ⟨hwf, hinv⟩
    · obtain ⟨w1, w2, w3, w4⟩ := hwf
      have hwid := get_user_by_id_ok db oid w hg
      constructor
      · refine ⟨?_, ?_, ?_, ?_⟩
        · rw [List.map_append]
          refine List.Nodup.append w1 (List.nodup_singleton _) ?_
          intro b hb hb2
          simp only [List.map_cons, List.map_nil, List.mem_singleton] at hb2
          obtain ⟨q, hq1, hq2⟩ := List.mem_map.mp hb
          have := w2 q hq1
          omega
        · intro p hp
          rcases List.mem_append.mp hp with h | h
          · have := w2 p h
            dsimp only
            omega
          · rw [List.mem_singleton] at h
            subst h
            dsimp only
            omega
        · intro m hm
          obtain ⟨p, hp1, hp2⟩ := w3 m hm
          exact ⟨p, List.mem_append_left _ hp1, hp2⟩
        · intro p hp
          rcases List.mem_append.mp hp with h | h
          · exact w4 p h
          · rw [List.mem_singleton] at h
            subst h
            exact ⟨w, List.mem_of_find?_eq_some hwid.1, hwid.2⟩
      · intro m hm p hp heq
        rcases List.mem_append.mp hp with h | h
        · exact hinv m hm p h heq
        · rw [List.mem_singleton] at h
          subst h
          exfalso
          obtain ⟨q, hq1, hq2⟩ := w3 m hm
          have := w2 q hq1
          dsimp only at heq
          omega

/-- Mapping the project table with a function that keeps ids and owners
of its rows preserves both predicates. -/
theorem pres_projects_map (db : DB) (g : ProjectR → ProjectR)
    (hid : ∀ q ∈ db.projects, (g q).project_id = q.project_id)
    (hown : ∀ q ∈ db.projects, (g q).owner_user_id = q.owner_user_id)
    (db' : DB) (hp' : db'.projects = db.projects.map g)
    (hm' : db'.members = db.members) (hu' : db'.users = db.users)
    (hn' : db'.next_project_id = db.next_project_id)
    (hwf : StoreWF db) (hinv : StoreInv db) : StoreWF db' ∧ StoreInv db' := by
  obtain ⟨w1, w2, w3, w4⟩ := hwf
  constructor
  · refine ⟨?_, ?_, ?_, ?_⟩
    · rw [hp', List.map_map]
      have he : db.projects.map ((fun p => p.project_id) ∘ g) =
          db.projects.map (fun p => p.project_id) :=
        List.map_congr_left (fun q hq => hid q hq)
      rw [he]
      exact w1
    · intro p hp
      rw [hp'] at hp
      obtain ⟨q, hq1, hq2⟩ := List.mem_map.mp hp
      rw [← hq2, hid q hq1, hn']
      exact w2 q hq1
    · intro m hm
      rw [hm'] at hm
      obtain ⟨p, hp1, hp2⟩ := w3 m hm
      refine ⟨g p, ?_, ?_⟩
      · rw [hp']
        exact List.mem_map_of_mem _ hp1
      · rw [hid p hp1]
        exact hp2
    · intro p hp
      rw [hp'] at hp
      obtain ⟨q, hq1, hq2⟩ := List.mem_map.mp hp
      obtain ⟨u, hu1, hu2⟩ := w4 q hq1
      refine ⟨u, by rw [hu']; exact hu1, ?_⟩
      rw [← hq2, hown q hq1]
      exact hu2
  · intro m hm p hp heq
    rw [hm'] at hm
    rw [hp'] at hp
    obtain ⟨q, hq1, hq2⟩ := List.mem_map.mp hp
    rw [← hq2, hown q hq1]
    rw [← hq2, hid q hq1] at heq
    exact hinv m hm q hq1 heq

/-- `update_project` preserves well-formedness and the exclusion
invariant. -/
theorem pres_update_project (db : DB) (pid : Int) (nm : Option String)
    (dsc : Option (Option String)) (hwf : StoreWF db) (hinv : StoreInv db) :
    StoreWF (update_project db pid nm dsc).1 ∧
    StoreInv (update_project db pid nm dsc).1 := by
  unfold update_project
  cases hg : get_project_by_id db pid with
  | error e => exact ⟨hwf, hinv⟩
  | ok p0 =>
    simp only []
    have hg2 := get_project_by_id_ok db pid p0 hg
    have hp0 : p0 ∈ db.projects := List.mem_of_find?_eq_some hg2.1
    have hp0id : p0.project_id = pid := by
      have := hg2.2
      simpa using this
    split
    · split
      · exact ⟨hwf, hinv⟩
      · refine pres_projects_map db
          (fun q => if q.project_id == pid then (projApply p0 nm dsc).1 else q)
          ?_ ?_ _ rfl rfl rfl rfl hwf hinv
        all_goals
          intro q hq
          dsimp only
          by_cases hc : (q.project_id == pid) = true
          · rw [if_pos hc]
            have hqp0 : q = p0 := proj_unique db hwf.1 q p0 hq hp0
              (by rw [hp0id]; simpa using hc)
            subst hqp0
            first
              | exact (projApply_keeps q nm dsc).1
              | exact (projApply_keeps q nm dsc).2
          · rw [if_neg hc]
    · exact ⟨hwf, hinv⟩

/-- Inversion of a successful membership lookup. -/
theorem get_project_member_ok (db : DB) (pid uid : Int) (mr : ProjectMemberR)
    (h : get_project_member db pid uid = .ok mr) :
    mr ∈ db.members ∧ mr.project_id = pid ∧ mr.user_id = uid := by
  unfold get_project_member at h
  cases hg : get_project_by_id db pid with
  | error e =>
    rw [hg] at h
    exact absurd h (by simp)
  | ok pr =>
    rw [hg] at h
    simp only [] at h
    cases hu : get_user_by_id db uid with
    | error e =>
      rw [hu] at h
      exact absurd h (by simp)
    | ok w =>
      rw [hu] at h
      simp only [] at h
      cases hm : db.members.find? (fun m => m.project_id == pid && m.user_id == uid) with
      | none =>
        rw [hm] at h
        exact absurd h (by simp)
      | some v =>
        rw [hm] at h
        simp only [Except.ok.injEq] at h
        subst h
        have hp := @List.find?_some _
          (fun m => m.project_id == pid && m.user_id == uid) v db.members hm
        simp only [Bool.and_eq_true, beq_iff_eq] at hp
        exact ⟨List.mem_of_find?_eq_some hm, hp.1, hp.2⟩

/-- Mapping the membership table with a key-preserving function
preserves both predicates. -/
theorem pres_members_map (db : DB) (f : ProjectMemberR → ProjectMemberR)
    (hkey : ∀ x ∈ db.members,
      (f x).project_id = x.project_id ∧ (f x).user_id = x.user_id)
    (db' : DB) (hp' : db'.projects = db.projects)
    (hm' : db'.members = db.members.map f) (hu' : db'.users = db.users)
    (hn' : db'.next_project_id = db.next_project_id)
    (hwf : StoreWF db) (hinv : StoreInv db) : StoreWF db' ∧ StoreInv db' := by
  obtain ⟨w1, w2, w3, w4⟩ := hwf
  constructor
  · refine ⟨?_, ?_, ?_, ?_⟩
    · rw [hp']
      exact w1
    · intro p hp
      rw [hp'] at hp
      rw [hn']
      exact w2 p hp
    · intro m hm
      rw [hm'] at hm
      obtain ⟨x, hx1, hx2⟩ := List.mem_map.mp hm
      obtain ⟨p, hp1, hp2⟩ := w3 x hx1
      refine ⟨p, by rw [hp']; exact hp1, ?_⟩
      rw [← hx2, (hkey x hx1).1]
      exact hp2
    · intro p hp
      rw [hp'] at hp
      rw [hu']
      exact w4 p hp
  · intro m hm p hp heq
    rw [hm'] at hm
    rw [hp'] at hp
    obtain ⟨x, hx1, hx2⟩ := List.mem_map.mp hm
    rw [← hx2, (hkey x hx1).2]
    rw [← hx2, (hkey x hx1).1] at heq
    exact hinv x hx1 p hp heq

/-- Shrinking the membership table preserves both predicates. -/
theorem pres_members_sublist (db db' : DB) (hp' : db'.projects = db.projects)
    (hm' : db'.members.Sublist db.members) (hu' : db'.users = db.users)
    (hn' : db'.next_project_id = db.next_project_id)
    (hwf : StoreWF db) (hinv : StoreInv db) : StoreWF db' ∧ StoreInv db' := by
  obtain ⟨w1, w2, w3, w4⟩ := hwf
  constructor
  · refine ⟨?_, ?_, ?_, ?_⟩
    · rw [hp']
      exact w1
    · intro p hp
      rw [hp'] at hp
      rw [hn']
      exact w2 p hp
    · intro m hm
      obtain ⟨p, hp1, hp2⟩ := w3 m (hm'.mem hm)
      exact ⟨p, by rw [hp']; exact hp1, hp2⟩
    · intro p hp
      rw [hp'] at hp
      rw [hu']
      exact w4 p hp
  · intro m hm p hp heq
    rw [hp'] at hp
    exact hinv m (hm'.mem hm) p hp heq

/-- `add_member_to_project` preserves well-formedness and the exclusion
invariant — on the success path the inserted member is never the
project's owner because of the owner pre-check. -/
theorem pres_add_member (db : DB) (uid pid : Int) (role : String)
    (hwf : StoreWF db) (hinv : StoreInv db) :
    StoreWF (add_member_to_project db uid pid role).1 ∧
    StoreInv (add_member_to_project db uid pid role).1 := by
  unfold add_member_to_project
  cases hg : get_project_by_id db pid with
  | error e => exact ⟨hwf, hinv⟩
  | ok project =>
    simp only []
    cases hu : get_user_by_id db uid with
    | error e => exact ⟨hwf, hinv⟩
    | ok user =>
      simp only []
      split
      · exact ⟨hwf, hinv⟩
      · cases hm : db.members.find?
            (fun m => m.project_id == pid && m.user_id == user.user_id) with
        | some mr => exact ⟨hwf, hinv⟩
        | none =>
          rename_i hownbad
          obtain ⟨w1, w2, w3, w4⟩ := hwf
          have hg2 := get_project_by_id_ok db pid project hg
          have hproj_mem : project ∈ db.projects :=
            List.mem_of_find?_eq_some hg2.1
          have hproj_id : project.project_id = pid := by
            have := hg2.2
            simpa using this
          have huid : user.user_id = uid := (get_user_by_id_ok db uid user hu).2
          constructor
          · refine ⟨w1, w2, ?_, w4⟩
            intro m hmem
            rcases List.mem_append.mp hmem with h | h
            · exact w3 m h
            · rw [List.mem_singleton] at h
              subst h
              exact ⟨project, hproj_mem, hproj_id⟩
          · intro m hmem p hp heq
            rcases List.mem_append.mp hmem with h | h
            · exact hinv m h p hp heq
            · rw [List.mem_singleton] at h
              subst h
              dsimp only at heq
              have hpq : p = project := proj_unique db w1 p project hp hproj_mem
                (by rw [heq, hproj_id])
              subst hpq
              dsimp only
              rw [huid]
              intro hcon
              exact hownbad (by simp [hcon])

/-- `update_member_role` preserves well-formedness and the exclusion
invariant. -/
theorem pres_update_member_role (db : DB) (pid uid : Int) (role : String)
    (hwf : StoreWF db) (hinv : StoreInv db) :
    StoreWF (update_member_role db pid uid role).1 ∧
    StoreInv (update_member_role db pid uid role).1 := by
  unfold update_member_role
  cases hg : get_project_member db pid uid with
  | error e => exact ⟨hwf, hinv⟩
  | ok m =>
    simp only []
    split
    · exact ⟨hwf, hinv⟩
    · obtain ⟨hmmem, hmpid, hmuid⟩ := get_project_member_ok db pid uid m hg
      refine pres_members_map db
        (fun x => if x.project_id == pid && x.user_id == uid then
          { m with role := role } else x) ?_ _ rfl rfl rfl rfl hwf hinv
      intro x hx
      dsimp only
      by_cases hc : (x.project_id == pid && x.user_id == uid) = true
      · rw [if_pos hc]
        simp only [Bool.and_eq_true, beq_iff_eq] at hc
        dsimp only
        rw [hmpid, hmuid, hc.1, hc.2]
        exact ⟨rfl, rfl⟩
      · rw [if_neg hc]
        exact ⟨rfl, rfl⟩

/-- `remove_member_from_project` preserves well-formedness and the
exclusion invariant. -/
theorem pres_remove_member (db : DB) (pid uid : Int)
    (hwf : StoreWF db) (hinv : StoreInv db) :
    StoreWF (remove_member_from_project db pid uid).1 ∧
    StoreInv (remove_member_from_project db pid uid).1 := by
  unfold remove_member_from_project
  cases hg : get_project_member db pid uid with
  | error e => exact ⟨hwf, hinv⟩
  | ok m =>
    exact pres_members_sublist db _ rfl (List.filter_sublist _) rfl rfl hwf hinv

/-- `delete_project` preserves well-formedness and the exclusion
invariant. -/
theorem pres_delete_project (db : DB) (pid : Int)
    (hwf : StoreWF db) (hinv : StoreInv db) :
    StoreWF (delete_project db pid).1 ∧
    StoreInv (delete_project db pid).1 := by
  unfold delete_project
  cases hg : get_project_by_id db pid with
  | error e => exact ⟨hwf, hinv⟩
  | ok pr =>
    obtain ⟨w1, w2, w3, w4⟩ := hwf
    constructor
    · refine ⟨?_, ?_, ?_, ?_⟩
      · exact ((List.filter_sublist _).map _).nodup w1
      · intro p hp
        exact w2 p (List.mem_filter.mp hp).1
      · intro m hm
        obtain ⟨hm1, hm2⟩ := List.mem_filter.mp hm
        obtain ⟨p, hp1, hp2⟩ := w3 m hm1
        refine ⟨p, List.mem_filter.mpr ⟨hp1, ?_⟩, hp2⟩
        rw [hp2]
        exact hm2
      · intro p hp
        exact w4 p (List.mem_filter.mp hp).1
    · intro m hm p hp heq
      exact hinv m (List.mem_filter.mp hm).1 p (List.mem_filter.mp hp).1 heq

/-- `transfer_project_ownership` preserves well-formedness and the
exclusion invariant: the new owner's membership row is removed and the
old owner (no longer the owner) is the only row added. -/
theorem pres_transfer (db : DB) (pid new_owner : Int)
    (hwf : StoreWF db) (hinv : StoreInv db) :
    StoreWF (transfer_project_ownership db pid new_owner).1 ∧
    StoreInv (transfer_project_ownership db pid new_owner).1 := by
  cases hg : get_project_by_id db pid with
  | error e =>
    unfold transfer_project_ownership
    rw [hg]
    exact ⟨hwf, hinv⟩
  | ok p =>
    cases hu : get_user_by_id db new_owner with
    | error e =>
      unfold transfer_project_ownership
      rw [hg]
      simp only []
      rw [hu]
      exact ⟨hwf, hinv⟩
    | ok w =>
      by_cases hne : (p.owner_user_id == new_owner) = true
      · unfold transfer_project_ownership
        rw [hg]
        simp only []
        rw [hu]
        simp only []
        rw [if_pos hne]
        exact ⟨hwf, hinv⟩
      · have hg2 := get_project_by_id_ok db pid p hg
        have hu2 := get_user_by_id_ok db new_owner w hu
        have hpmem : p ∈ db.projects := List.mem_of_find?_eq_some hg2.1
        have hpid : p.project_id = pid := by
          have := hg2.2
          simpa using this
        have hnomem : ∀ m ∈ db.members,
            ¬(m.project_id = pid ∧ m.user_id = p.owner_user_id) := by
          rintro m hm ⟨h1, h2⟩
          exact hinv m hm p hpmem (by rw [hpid, h1]) h2.symm
        have heff := transfer_ownership_effects db pid new_owner p hg2.1
          ⟨w, List.mem_of_find?_eq_some hu2.1, hu2.2⟩
          (by
            intro hq
            exact hne (by simp [hq]))
          hnomem (hwf.2.2.2 p hpmem)
        rw [heff]
        dsimp only
        obtain ⟨w1, w2, w3, w4⟩ := hwf
        have hgid : ∀ q : ProjectR,
            ((if q.project_id == pid then { q with owner_user_id := new_owner }
              else q) : ProjectR).project_id = q.project_id := by
          intro q
          by_cases hc : (q.project_id == pid) = true
          · rw [if_pos hc]
          · rw [if_neg hc]
        constructor
        · refine ⟨?_, ?_, ?_, ?_⟩
          · rw [List.map_map]
            have he : db.projects.map ((fun q => q.project_id) ∘
                (fun q => if q.project_id == pid then
                  { q with owner_user_id := new_owner } else q)) =
                db.projects.map (fun q => q.project_id) :=
              List.map_congr_left (fun q _ => hgid q)
            rw [he]
            exact w1
          · intro q hq
            obtain ⟨q0, hq0, hq0e⟩ := List.mem_map.mp hq
            rw [← hq0e, hgid q0]
            exact w2 q0 hq0
          · intro m hm
            rcases List.mem_append.mp hm with h | h
            · obtain ⟨q0, hq0, hq0e⟩ := w3 m (List.mem_filter.mp h).1
              refine ⟨if q0.project_id == pid then
                { q0 with owner_user_id := new_owner } else q0,
                List.mem_map_of_mem _ hq0, ?_⟩
              rw [hgid q0]
              exact hq0e
            · rw [List.mem_singleton] at h
              subst h
              refine ⟨if p.project_id == pid then
                { p with owner_user_id := new_owner } else p,
                List.mem_map_of_mem _ hpmem, ?_⟩
              rw [hgid p]
              exact hpid
          · intro q hq
            obtain ⟨q0, hq0, hq0e⟩ := List.mem_map.mp hq
            by_cases hc : (q0.project_id == pid) = true
            · rw [if_pos hc] at hq0e
              rw [← hq0e]
              exact ⟨w, List.mem_of_find?_eq_some hu2.1, hu2.2⟩
            · rw [if_neg hc] at hq0e
              rw [← hq0e]
              exact w4 q0 hq0
        · intro m hm q hq heq
          obtain ⟨q0, hq0, hq0e⟩ := List.mem_map.mp hq
          rcases List.mem_append.mp hm with h | h
          · obtain ⟨hmm, hmf⟩ := List.mem_filter.mp h
            by_cases hc : (q0.project_id == pid) = true
            · rw [if_pos hc] at hq0e
              rw [← hq0e]
              dsimp only
              rw [← hq0e] at heq
              dsimp only at heq
              have hmpid : m.project_id = pid := by
                rw [← heq]
                simpa using hc
              intro hcon
              rw [Bool.not_eq_true'] at hmf
              simp only [Bool.not_eq_true, Bool.and_eq_false_iff] at hmf
              rcases hmf with hf | hf
              · rw [beq_eq_false_iff_ne] at hf
                exact hf hmpid
              · rw [beq_eq_false_iff_ne] at hf
                exact hf hcon.symm
            · rw [if_neg hc] at hq0e
              rw [← hq0e]
              rw [← hq0e] at heq
              exact hinv m hmm q0 hq0 heq
          · rw [List.mem_singleton] at h
            subst h
            dsimp only at heq
            by_cases hc : (q0.project_id == pid) = true
            · rw [if_pos hc] at hq0e
              rw [← hq0e]
              dsimp only
              intro hcon
              exact hne (by simp [hcon.symm])
            · rw [if_neg hc] at hq0e
              rw [← hq0e] at heq
              exfalso
              rw [heq] at hc
              exact hc (by simp)

/-- `handle_invite_acceptance` preserves well-formedness and the
owner-exclusion invariant: every rejecting path leaves the store as it
was, and the accepting path chains `add_member_to_project`,
`increment_invite_uses` and `delete_invite_by_code`, each of which
preserves both properties. -/
theorem pres_handle_invite (db : DB) (now uid : Int) (code : String)
    (hwf : StoreWF db) (hinv : StoreInv db) :
    StoreWF (handle_invite_acceptance db now uid code).1 ∧
    StoreInv (handle_invite_acceptance db now uid code).1 := by
  unfold handle_invite_acceptance
  cases hi : get_invite_by_code db code with
  | error e => exact ⟨hwf, hinv⟩
  | ok invite =>
    try simp only []
    by_cases hexp : (match invite.expires_at with
        | some t => decide (t < now)
        | none => false) = true
    · rw [if_pos hexp]
      exact ⟨hwf, hinv⟩
    · rw [if_neg hexp]
      by_cases hmax : (match invite.max_uses with
          | some m => decide (invite.current_uses ≥ m)
          | none => false) = true
      · rw [if_pos hmax]
        exact ⟨hwf, hinv⟩
      · rw [if_neg hmax]
        cases hu : get_user_by_id db uid with
        | error e => exact ⟨hwf, hinv⟩
        | ok w =>
          cases hm : get_project_member db invite.project_id uid with
          | ok mr => exact ⟨hwf, hinv⟩
          | error e =>
            have h1 := pres_add_member db uid invite.project_id "member" hwf hinv
            have h2 := WF_Inv_of_core_eq
              (add_member_to_project db uid invite.project_id "member").1
              (increment_invite_uses
                (add_member_to_project db uid invite.project_id "member").1 code).1
              (increment_invite_uses_core _ code)
            have h3 := WF_Inv_of_core_eq
              (increment_invite_uses
                (add_member_to_project db uid invite.project_id "member").1 code).1
              (delete_invite_by_code
                (increment_invite_uses
                  (add_member_to_project db uid invite.project_id "member").1
                  code).1 code).1
              (delete_invite_by_code_core _ code)
            cases e <;> try exact ⟨hwf, hinv⟩
            case _ a b =>
              try simp only []
              cases hr1 : (add_member_to_project db uid
                  invite.project_id "member").2 with
              | error e2 => exact h1
              | ok nm =>
                try simp only []
                cases hr2 : (increment_invite_uses
                    (add_member_to_project db uid
                      invite.project_id "member").1 code).2 with
                | error e2 => exact ⟨h2.1 h1.1, h2.2 h1.2⟩
                | ok ui =>
                  try simp only []
                  by_cases hb3 : (match ui.max_uses with
                      | some m => decide (ui.current_uses ≥ m)
                      | none => false) = true
                  · rw [if_pos hb3]
                    cases hr3 : (delete_invite_by_code
                        (increment_invite_uses
                          (add_member_to_project db uid
                            invite.project_id "member").1 code).1 code).2 with
                    | error e2 => exact ⟨h3.1 (h2.1 h1.1), h3.2 (h2.2 h1.2)⟩
                    | ok x => exact ⟨h3.1 (h2.1 h1.1), h3.2 (h2.2 h1.2)⟩
                  · rw [if_neg hb3]
                    exact ⟨h2.1 h1.1, h2.2 h1.2⟩

/-- A store is reachable when it is produced from the empty store by a
sequence of the mutating CRUD operations of src/db/crud.py, each applied
with arbitrary arguments. -/
inductive Reachable : DB → Prop where
  | init : Reachable emptyDB
  | step_create_user (db : DB) (uid : Int) (un : Option String) (fn : String)
      (ib : Bool) : Reachable db → Reachable (create_user db uid un fn ib).1
  | step_upsert_user (db : DB) (uid : Int) (un : Option String) (fn : String)
      (ib : Bool) : Reachable db →
      Reachable (get_or_create_and_update_user db uid un fn ib).1
  | step_create_project (db : DB) (oid : Int) (nm : String)
      (dsc : Option String) : Reachable db →
      Reachable (create_project db oid nm dsc).1
  | step_update_project (db : DB) (pid : Int) (nm : Option String)
      (dsc : Option (Option String)) : Reachable db →
      Reachable (update_project db pid nm dsc).1
  | step_transfer (db : DB) (pid new_owner : Int) : Reachable db →
      Reachable (transfer_project_ownership db pid new_owner).1
  | step_delete_project (db : DB) (pid : Int) : Reachable db →
      Reachable (delete_project db pid).1
  | step_add_member (db : DB) (uid pid : Int) (role : String) : Reachable db →
      Reachable (add_member_to_project db uid pid role).1
  | step_update_member_role (db : DB) (pid uid : Int) (role : String) :
      Reachable db → Reachable (update_member_role db pid uid role).1
  | step_remove_member (db : DB) (pid uid : Int) : Reachable db →
      Reachable (remove_member_from_project db pid uid).1
  | step_create_task (db : DB) (pid cid : Int) (ttl dsc : String) (chat : Int)
      (asg : Option Int) (stt : String) (dd : Option Int) : Reachable db →
      Reachable (create_task db pid cid ttl dsc chat asg stt dd).1
  | step_update_task (db : DB) (now tid : Int) (ttl dsc st : Option String)
      (asg dd : Option (Option Int)) : Reachable db →
      Reachable (update_task db now tid ttl dsc st asg dd).1
  | step_delete_task (db : DB) (tid : Int) : Reachable db →
      Reachable (delete_task db tid).1
  | step_create_invite (db : DB) (pid gid : Int) (code : String)
      (mu ex : Option Int) : Reachable db →
      Reachable (create_invite db pid gid code mu ex).1
  | step_increment_invite (db : DB) (code : String) : Reachable db →
      Reachable (increment_invite_uses db code).1
  | step_delete_invite_code (db : DB) (code : String) : Reachable db →
      Reachable (delete_invite_by_code db code).1
  | step_delete_invite_id (db : DB) (iid : Int) : Reachable db →
      Reachable (delete_invite_by_id db iid).1
  | step_create_chat (db : DB) (cid : Int) (ctype : String)
      (ctitle : Option String) : Reachable db →
      Reachable (create_chat db cid ctype ctitle).1
  | step_add_chat (db : DB) (pid cid : Int) : Reachable db →
      Reachable (add_chat_to_project db pid cid).1
  | step_remove_chat (db : DB) (pid cid : Int) : Reachable db →
      Reachable (remove_chat_from_project db pid cid).1
  | step_accept_invite (db : DB) (now uid : Int) (code : String) :
      Reachable db → Reachable (handle_invite_acceptance db now uid code).1

/-- The empty store is well-formed and satisfies the owner-exclusion
invariant. -/
theorem emptyDB_WF_Inv : StoreWF emptyDB ∧ StoreInv emptyDB := by
  unfold StoreWF StoreInv emptyDB
  simp

/-- Every reachable store is well-formed and satisfies the
owner-exclusion invariant, by induction over the operation sequence. -/
theorem reachable_WF_Inv (db : DB) (h : Reachable db) :
    StoreWF db ∧ StoreInv db := by
  induction h with
  | init => exact emptyDB_WF_Inv
  | step_create_user db uid un fn ib a ih =>
    exact pres_create_user db uid un fn ib ih.1 ih.2
  | step_upsert_user db uid un fn ib a ih =>
    exact pres_upsert_user db uid un fn ib ih.1 ih.2
  | step_create_project db oid nm dsc a ih =>
    exact pres_create_project db oid nm dsc ih.1 ih.2
  | step_update_project db pid nm dsc a ih =>
    exact pres_update_project db pid nm dsc ih.1 ih.2
  | step_transfer db pid new_owner a ih =>
    exact pres_transfer db pid new_owner ih.1 ih.2
  | step_delete_project db pid a ih =>
    exact pres_delete_project db pid ih.1 ih.2
  | step_add_member db uid pid role a ih =>
    exact pres_add_member db uid pid role ih.1 ih.2
  | step_update_member_role db pid uid role a ih =>
    exact pres_update_member_role db pid uid role ih.1 ih.2
  | step_remove_member db pid uid a ih =>
    exact pres_remove_member db pid uid ih.1 ih.2
  | step_create_task db pid cid ttl dsc chat asg stt dd a ih =>
    have hc := WF_Inv_of_core_eq db (create_task db pid cid ttl dsc chat asg stt dd).1
      (create_task_core db pid cid ttl dsc chat asg stt dd)
    exact ⟨hc.1 ih.1, hc.2 ih.2⟩
  | step_update_task db now tid ttl dsc st asg dd a ih =>
    have hc := WF_Inv_of_core_eq db (update_task db now tid ttl dsc st asg dd).1
      (update_task_core db now tid ttl dsc st asg dd)
    exact ⟨hc.1 ih.1, hc.2 ih.2⟩
  | step_delete_task db tid a ih =>
    have hc := WF_Inv_of_core_eq db (delete_task db tid).1 (delete_task_core db tid)
    exact ⟨hc.1 ih.1, hc.2 ih.2⟩
  | step_create_invite db pid gid code mu ex a ih =>
    have hc := WF_Inv_of_core_eq db (create_invite db pid gid code mu ex).1
      (create_invite_core db pid gid code mu ex)
    exact ⟨hc.1 ih.1, hc.2 ih.2⟩
  | step_increment_invite db code a ih =>
    have hc := WF_Inv_of_core_eq db (increment_invite_uses db code).1
      (increment_invite_uses_core db code)
    exact ⟨hc.1 ih.1, hc.2 ih.2⟩
  | step_delete_invite_code db code a ih =>
    have hc := WF_Inv_of_core_eq db (delete_invite_by_code db code).1
      (delete_invite_by_code_core db code)
    exact ⟨hc.1 ih.1, hc.2 ih.2⟩
  | step_delete_invite_id db iid a ih =>
    have hc := WF_Inv_of_core_eq db (delete_invite_by_id db iid).1
      (delete_invite_by_id_core db iid)
    exact ⟨hc.1 ih.1, hc.2 ih.2⟩
  | step_create_chat db cid ctype ctitle a ih =>
    have hc := WF_Inv_of_core_eq db (create_chat db cid ctype ctitle).1
      (create_chat_core db cid ctype ctitle)
    exact ⟨hc.1 ih.1, hc.2 ih.2⟩
  | step_add_chat db pid cid a ih =>
    have hc := WF_Inv_of_core_eq db (add_chat_to_project db pid cid).1
      (add_chat_to_project_core db pid cid)
    exact ⟨hc.1 ih.1, hc.2 ih.2⟩
  | step_remove_chat db pid cid a ih =>
    have hc := WF_Inv_of_core_eq db (remove_chat_from_project db pid cid).1
      (remove_chat_from_project_core db pid cid)
    exact ⟨hc.1 ih.1, hc.2 ih.2⟩
  | step_accept_invite db now uid code a ih =>
    exact pres_handle_invite db now uid code ih.1 ih.2

/-- C4: for every reachable store state, a project's owner never
simultaneously holds a membership row for the project they own — every
mutating operation, in particular `add_member_to_project` (which rejects
the current owner), `transfer_project_ownership` (which removes the new
owner's row and demotes the old owner to a plain member row) and
`handle_invite_acceptance`, preserves the predicate that for every
project `p` and membership row `m` of `p`, `m.user_id` is not
`p.owner_user_id`. -/
theorem owner_never_member_reachable (db : DB) (h : Reachable db) :
    ∀ m ∈ db.members, ∀ p ∈ db.projects,
      p.project_id = m.project_id → p.owner_user_id ≠ m.user_id :=
  (reachable_WF_Inv db h).2

/-- A small reachable store with a real membership row: two users, a
project owned by user 1, and user 2 added as a member. -/
def dbReachEx : DB :=
  (add_member_to_project
    (create_project
      (create_user (create_user emptyDB 1 none "alice" false).1
        2 none "bob" false).1
      1 "proj" none).1
    2 1 "member").1

/-- Witness: the owner-exclusion theorem applied to the concrete
reachable store `dbReachEx`. -/
theorem owner_never_member_reachable_witness : StoreInv dbReachEx :=
  owner_never_member_reachable dbReachEx
    (Reachable.step_add_member _ 2 1 "member"
      (Reachable.step_create_project _ 1 "proj" none
        (Reachable.step_create_user _ 2 none "bob" false
          (Reachable.step_create_user emptyDB 1 none "alice" false
            Reachable.init))))
